import Mathlib

/-!
# babyjson: the parser `parse`, the serializer `dump` and their helpers

A shallow embedding of `src/main.cpp`.

Conventions of the embedding.

* A C++ `char` is a byte, written as a `Nat` below 256; a `std::string` and a
  `std::string_view` are a `List Nat`.  `ascii "abc"` is the byte list of an
  ASCII literal.
* `size_t` offsets are `Nat` (no wrap-around is reachable for inputs that fit
  in memory); `uint32_t` values are reduced `% 2 ^ 32` where the source
  converts to them, `unsigned long` is 64 bits wide.
* The view handed to `parse` lies in a buffer that carries a NUL right after
  the view's last character, as the literal viewed in `main` does.  Every view
  `parse` passes to itself is a suffix `json.substr(i)`, so it ends at the same
  place.  Reading `json[json.size()]` therefore yields NUL, and a C string
  started inside the view (`json.substr(i, n).data()` converted to
  `std::string`) runs to the first NUL of the remaining view.
* `json[i]` with `i > json.size()` reads outside the buffer.  The embedding
  reports it as `Err.readPastEnd` instead of inventing a value.
* A C++ exception is `Except.error`; a computation that has not finished
  within its fuel is `none`.
* `std::from_chars` for `double` and `std::to_string` for `double` are library
  routines over binary64; they are taken as parameters (`FloatLib`).
* The order in which a `std::unordered_map` yields its entries is left open by
  the library; it is a parameter too (`FloatLib.map_order`), applied to the
  entries in insertion order.
-/

namespace BabyJson

/-- The bytes of an ASCII literal. -/
def ascii (s : String) : List Nat := s.toList.map Char.toNat

/-- The exceptions that can leave `parse`, and the out-of-buffer read. -/
inductive Err where
  /-- Thrown by `utf8Encode`: `std::runtime_error("Invalid Unicode code point")`. -/
  | invalidCodePoint
  /-- Thrown by `std::stoul` when no digit could be converted. -/
  | invalidArgument
  /-- Thrown by `std::stoul` when the digits exceed `unsigned long`. -/
  | outOfRange
  /-- A read `json[i]` with `i > json.size()`: undefined behaviour. -/
  | readPastEnd
deriving DecidableEq, Repr

/-- A binary64 value, kept as its bit pattern. -/
structure Double where
  bits : Nat
deriving DecidableEq, Repr

/-- What the program takes from the library without fixing it: the two routines over
`double`, and the order of iteration of `std::unordered_map`. -/
structure FloatLib where
  /-- The call `try_parse_num<double>(str)`: `std::from_chars` for `double`, accepted only
  when it succeeds and consumes all of `str`. -/
  from_chars : List Nat → Option Double
  /-- The call `std::to_string(double)`. -/
  to_string : Double → List Nat
  /-- The order in which `for (const auto& [key, val] : map)` yields the entries of a map
  whose entries were inserted in the order of the argument; each entry is given as its key
  and the text written for its value. -/
  map_order : List (List Nat × List Nat) → List (List Nat × List Nat)
  /-- Iteration yields every entry once. -/
  map_order_perm : ∀ l, (map_order l).Perm l

/-- A `FloatLib` whose `from_chars` reports failure on every text and whose maps iterate in
insertion order; it serves to evaluate the parser on inputs in which no floating-point
literal occurs. -/
def noFloat : FloatLib := ⟨fun _ => none, fun _ => [], fun l => l, fun l => List.Perm.refl l⟩

/-- The variant held by `JSONObject::inner`.  The `unordered_map` is kept as the
list of its entries in insertion order; its keys are pairwise distinct.  The order in
which the map is iterated is not part of the value: see `FloatLib.map_order`. -/
inductive Value where
  | null
  | bool (b : Bool)
  | int (n : Int)
  | float (d : Double)
  | string (s : List Nat)
  | array (xs : List Value)
  | object (kvs : List (List Nat × Value))
deriving Repr

/-- What `parse` hands back: `none` while fuel is missing, otherwise an exception or the
pair `(value, eaten)`. -/
abbrev Outcome := Option (Except Err (Value × Nat))

/-! ## Character helpers -/

def isDigit (c : Nat) : Bool := decide (48 ≤ c) && decide (c ≤ 57)

/-- The value of a hexadecimal digit, `none` for any other byte. -/
def hexDigit (c : Nat) : Option Nat :=
  if 48 ≤ c ∧ c ≤ 57 then some (c - 48)
  else if 97 ≤ c ∧ c ≤ 102 then some (c - 87)
  else if 65 ≤ c ∧ c ≤ 70 then some (c - 55)
  else none

def isHex (c : Nat) : Bool := (hexDigit c).isSome

/-- The C locale's `isspace`: space, `\t`, `\n`, `\v`, `\f`, `\r`. -/
def isspace (c : Nat) : Bool := c == 32 || (decide (9 ≤ c) && decide (c ≤ 13))

/-- The bytes of a C string that starts at the head of `s`: everything before the first NUL. -/
def cstr (s : List Nat) : List Nat := s.takeWhile (fun c => c != 0)

/-- The function `unescaped_char` (main.cpp 56-68). -/
def unescaped_char (c : Nat) : Nat :=
  if c = 110 then 10        -- 'n'
  else if c = 114 then 13   -- 'r'
  else if c = 48 then 0     -- '0'
  else if c = 116 then 9    -- 't'
  else if c = 118 then 11   -- 'v'
  else if c = 102 then 12   -- 'f'
  else if c = 98 then 8     -- 'b'
  else if c = 97 then 7     -- 'a'
  else c

/-- The function `utf8Encode` (main.cpp 71-106); `static_cast<char>` keeps the low byte. -/
def utf8Encode (codepoint : Nat) : Except Err (List Nat) :=
  if codepoint ≤ 0x7F then
    .ok [codepoint % 256]
  else if codepoint ≤ 0x7FF then
    .ok [(0xC0 ||| ((codepoint >>> 6) &&& 0x1F)) % 256,
         (0x80 ||| (codepoint &&& 0x3F)) % 256]
  else if codepoint ≤ 0xFFFF then
    .ok [(0xE0 ||| ((codepoint >>> 12) &&& 0x0F)) % 256,
         (0x80 ||| ((codepoint >>> 6) &&& 0x3F)) % 256,
         (0x80 ||| (codepoint &&& 0x3F)) % 256]
  else if codepoint ≤ 0x10FFFF then
    .ok [(0xF0 ||| ((codepoint >>> 18) &&& 0x07)) % 256,
         (0x80 ||| ((codepoint >>> 12) &&& 0x3F)) % 256,
         (0x80 ||| ((codepoint >>> 6) &&& 0x3F)) % 256,
         (0x80 ||| (codepoint &&& 0x3F)) % 256]
  else
    .error .invalidCodePoint

/-! ## Library routines on text -/

/-- The number written by a run of decimal digits, most significant first. -/
def decVal (ds : List Nat) : Nat := ds.foldl (fun acc c => acc * 10 + (c - 48)) 0

/-- The number written by a run of hexadecimal digits, most significant first. -/
def hexVal (ds : List Nat) : Nat := ds.foldl (fun acc c => acc * 16 + (hexDigit c).getD 0) 0

/-- The call `std::stoul(s, nullptr, 16)`: `strtoul` skips white space, takes an optional
sign and an optional `0x`/`0X` that is followed by a hex digit, then the longest run of hex
digits.  No digit: `std::invalid_argument`.  A magnitude above `ULONG_MAX`:
`std::out_of_range`.  A minus sign negates modulo `2 ^ 64`. -/
def stoul16 (s : List Nat) : Except Err Nat :=
  let s1 := s.dropWhile isspace
  let neg := s1.head? == some 45
  let s2 := if s1.head? == some 45 || s1.head? == some 43 then s1.tail else s1
  let s3 := match s2 with
    | 48 :: x :: h :: r => if (x == 120 || x == 88) && isHex h then h :: r else s2
    | _ => s2
  let ds := s3.takeWhile isHex
  if ds.isEmpty then .error .invalidArgument
  else if 2 ^ 64 ≤ hexVal ds then .error .outOfRange
  else .ok (if neg then (2 ^ 64 - hexVal ds) % 2 ^ 64 else hexVal ds)

/-- The call `try_parse_num<int>(str)` (main.cpp 46-54): `std::from_chars` for `int` reads an
optional `-` and the longest run of digits; the result is kept only if there was a digit, the
value fits a 32-bit `int`, and the whole of `str` was read. -/
def try_parse_int (str : List Nat) : Option Int :=
  let neg := str.head? == some 45
  let ds := if neg then str.tail else str
  if ds.isEmpty || !ds.all isDigit then none
  else
    let v : Int := if neg then -(decVal ds : Int) else (decVal ds : Int)
    if -2147483648 ≤ v ∧ v ≤ 2147483647 then some v else none

/-- Decimal digits of `n`, most significant first, pushed in front of `acc`. -/
def digitsAux : Nat → Nat → List Nat → List Nat
  | 0, _, acc => acc
  | fuel + 1, n, acc =>
    if n < 10 then (48 + n) :: acc
    else digitsAux fuel (n / 10) ((48 + n % 10) :: acc)

/-- The call `std::to_string(int)`: a `-` for a negative value, then the decimal digits. -/
def to_string (n : Int) : List Nat :=
  if n < 0 then 45 :: digitsAux (n.natAbs + 1) n.natAbs []
  else digitsAux (n.natAbs + 1) n.natAbs []

/-! ## The two regular expressions -/

/-- Length of the match of `[+-]?[0-9]+(\.[0-9]*)?([eE][+-]?[0-9]+)?` that starts at the
head of `s`, found the way a backtracking ECMAScript matcher finds it: every quantifier is
greedy and, the digits once taken, each later group is optional, so the first attempt is
the match. -/
def matchNum (s : List Nat) : Option Nat :=
  let signed := s.head? == some 43 || s.head? == some 45
  let s1 := if signed then s.tail else s
  let ds := s1.takeWhile isDigit
  if ds.isEmpty then none
  else
    let n1 := (if signed then 1 else 0) + ds.length
    let s2 := s1.drop ds.length
    let fl := if s2.head? == some 46 then 1 + (s2.tail.takeWhile isDigit).length else 0
    let s3 := s2.drop fl
    let ex :=
      if s3.head? == some 101 || s3.head? == some 69 then
        let t := s3.tail
        let sg := if t.head? == some 43 || t.head? == some 45 then 1 else 0
        let es := (t.drop sg).takeWhile isDigit
        if es.isEmpty then 0 else 1 + sg + es.length
      else 0
    some (n1 + fl + ex)

/-- The call `std::regex_search` with `num_re` followed by `match.str()`: the match at the
leftmost position that has one. -/
def searchNum : List Nat → Option (List Nat)
  | [] => none
  | c :: cs =>
    match matchNum (c :: cs) with
    | some n => some ((c :: cs).take n)
    | none => searchNum cs

/-- The alternatives of `bool_re`, in the order the pattern lists them. -/
def boolWords : List (List Nat) :=
  [ascii "true", ascii "false", ascii "null", ascii "True", ascii "False", ascii "Null"]

/-- The call `std::regex_search` with `bool_re` followed by `match.str()`: at the leftmost
position where an alternative matches, the first alternative that does. -/
def searchBool : List Nat → Option (List Nat)
  | [] => none
  | c :: cs =>
    match boolWords.find? (fun w => w.isPrefixOf (c :: cs)) with
    | some w => some w
    | none => searchBool cs

/-- The call `json.find_first_not_of(" \n\r\t\v\f\0")`.  The argument is a `const char*`, so
the set of characters ends at its first NUL: space, `\n`, `\r`, `\t`, `\v`, `\f`.  The result
is `none` for `npos`. -/
def find_first_not_of_ws : List Nat → Option Nat
  | [] => none
  | c :: cs =>
    if c == 32 || c == 10 || c == 13 || c == 9 || c == 11 || c == 12 then
      (find_first_not_of_ws cs).map (· + 1)
    else some 0

/-! ## The string loop -/

/-- The phases of the string state machine (main.cpp 141-147). -/
inductive Phase where
  | Raw | Escaped | Hex1 | Hex2 | Hex4
deriving DecidableEq, Repr

/-- The conversion `uint32_t code = std::stoul(hexVal, nullptr, 16)` of the C string that
starts at offset `i`. -/
def readHex (json : List Nat) (i : Nat) : Except Err Nat :=
  match stoul16 (cstr (json.drop i)) with
  | .ok v => .ok (v % 2 ^ 32)
  | .error e => .error e

/-- The body of the `Hex2` phase up to `utf8Encode` (main.cpp 180-193): the code point to
encode and the offset `i` after the adjustments, before the loop's own `i++`. -/
def hex2Step (json : List Nat) (i : Nat) : Except Err (Nat × Nat) :=
  match readHex json i with
  | .error e => .error e
  | .ok code =>
    let i := i + 3
    if 0xD800 ≤ code ∧ code ≤ 0xDBFF then
      if i + 6 < json.length ∧ json.getD (i + 1) 0 = 92 ∧ json.getD (i + 2) 0 = 117 then
        match readHex json (i + 3) with
        | .error e => .error e
        | .ok low =>
          if 0xDC00 ≤ low ∧ low ≤ 0xDFFF then
            .ok ((((code - 0xD800) <<< 10) + (low - 0xDC00) + 0x10000) % 2 ^ 32, i + 5)
          else .ok (code, i)
      else .ok (code, i)
    else .ok (code, i)

/-- The `for` loop of the string branch (main.cpp 149-208) from offset `i` on, in phase
`phase`, with `str` built so far; the result is `(str, i)` at the `return` of line 209.
Each iteration moves `i` forward, so `json.length` iterations are enough. -/
def strLoop (json : List Nat) (quote : Nat) :
    Nat → Nat → Phase → List Nat → Option (Except Err (List Nat × Nat))
  | 0, i, _, str => if i < json.length then none else some (.ok (str, i))
  | fuel + 1, i, phase, str =>
    if i < json.length then
      let ch := json.getD i 0
      match phase with
      | .Raw =>
        if ch = 92 then strLoop json quote fuel (i + 1) .Escaped str
        else if ch = quote then some (.ok (str, i + 1))
        else strLoop json quote fuel (i + 1) .Raw (str ++ [ch])
      | .Escaped =>
        if ch = 120 then strLoop json quote fuel (i + 1) .Hex1 str
        else if ch = 117 then strLoop json quote fuel (i + 1) .Hex2 str
        else if ch = 85 then strLoop json quote fuel (i + 1) .Hex4 str
        else strLoop json quote fuel (i + 1) .Raw (str ++ [unescaped_char ch])
      | .Hex1 =>
        match readHex json i with
        | .error e => some (.error e)
        | .ok code =>
          match utf8Encode code with
          | .error e => some (.error e)
          | .ok bytes => strLoop json quote fuel (i + 1 + 1) .Raw (str ++ bytes)
      | .Hex2 =>
        match hex2Step json i with
        | .error e => some (.error e)
        | .ok (code, i2) =>
          match utf8Encode code with
          | .error e => some (.error e)
          | .ok bytes => strLoop json quote fuel (i2 + 1) .Raw (str ++ bytes)
      | .Hex4 =>
        match readHex json i with
        | .error e => some (.error e)
        | .ok code =>
          match utf8Encode code with
          | .error e => some (.error e)
          | .ok bytes => strLoop json quote fuel (i + 7 + 1) .Raw (str ++ bytes)
    else some (.ok (str, i))

/-! ## The array and object loops -/

/-- The statement `if (json[i] == c) i += 1;` for `i ≤ json.size()`. -/
def skipChar (json : List Nat) (c : Nat) (i : Nat) : Nat :=
  if json.getD i 0 = c then i + 1 else i

/-- The `for` loop of the array branch (main.cpp 213-228) from offset `i` on, with `res`
built so far; `sub` is `parse` on the views `json.substr(i)`. -/
def arrLoop (sub : List Nat → Outcome) (json : List Nat) :
    Nat → Nat → List Value → Outcome
  | 0, i, res => if i < json.length then none else some (.ok (.array res, i))
  | fuel + 1, i, res =>
    if i < json.length then
      if json.getD i 0 = 93 then some (.ok (.array res, i + 1))
      else
        match sub (json.drop i) with
        | none => none
        | some (.error e) => some (.error e)
        | some (.ok (obj, eaten)) =>
          if eaten = 0 then some (.ok (.array res, 0))
          else if json.length < i + eaten then some (.error .readPastEnd)
          else arrLoop sub json fuel (skipChar json 44 (i + eaten)) (res ++ [obj])
    else some (.ok (.array res, i))

/-- The call `res.try_emplace(key, val)`: the entry is added only when the key is absent. -/
def try_emplace (res : List (List Nat × Value)) (key : List Nat) (val : Value) :
    List (List Nat × Value) :=
  if res.any (fun kv => kv.1 == key) then res else res ++ [(key, val)]

/-- The `for` loop of the object branch (main.cpp 233-262) from offset `i` on, with `res`
built so far; `sub` is `parse` on the views `json.substr(i)`. -/
def objLoop (sub : List Nat → Outcome) (json : List Nat) :
    Nat → Nat → List (List Nat × Value) → Outcome
  | 0, i, res => if i < json.length then none else some (.ok (.object res, i))
  | fuel + 1, i, res =>
    if i < json.length then
      if json.getD i 0 = 125 then some (.ok (.object res, i + 1))
      else
        match sub (json.drop i) with
        | none => none
        | some (.error e) => some (.error e)
        | some (.ok (keyobj, keyeaten)) =>
          if keyeaten = 0 then some (.ok (.object res, 0))
          else
            match keyobj with
            | .string key =>
              if json.length < i + keyeaten then some (.error .readPastEnd)
              else
                let i1 := skipChar json 58 (i + keyeaten)
                match sub (json.drop i1) with
                | none => none
                | some (.error e) => some (.error e)
                | some (.ok (valobj, valeaten)) =>
                  if valeaten = 0 then some (.ok (.object res, 0))
                  else if json.length < i1 + valeaten then some (.error .readPastEnd)
                  else
                    objLoop sub json fuel (skipChar json 44 (i1 + valeaten))
                      (try_emplace res key valobj)
            | _ => some (.ok (.object res, 0))
    else some (.ok (.object res, i))

/-! ## The parser -/

/-- The number branch (main.cpp 115-124), `none` when it falls through to line 265. -/
def parseNumber (lib : FloatLib) (json : List Nat) : Option (Value × Nat) :=
  match searchNum json with
  | none => none
  | some str =>
    match try_parse_int str with
    | some n => some (.int n, str.length)
    | none =>
      match lib.from_chars str with
      | some d => some (.float d, str.length)
      | none => none

/-- The literal branch (main.cpp 126-137), `none` when it falls through to line 265. -/
def parseLiteral (json : List Nat) : Option (Value × Nat) :=
  match searchBool json with
  | none => none
  | some str =>
    if str = ascii "true" ∨ str = ascii "True" then some (.bool true, str.length)
    else if str = ascii "false" ∨ str = ascii "False" then some (.bool false, str.length)
    else if str = ascii "null" ∨ str = ascii "Null" then some (.null, str.length)
    else none

/-- The function `parse` (main.cpp 108-266) with a bound on the depth of its recursion. -/
def parseFuel (lib : FloatLib) : Nat → List Nat → Outcome
  | 0, _ => none
  | fuel + 1, json =>
    let c := json.getD 0 0
    if json.isEmpty then some (.ok (.null, 0))
    else if (find_first_not_of_ws json).isSome ∧ find_first_not_of_ws json ≠ some 0 then
      let off := (find_first_not_of_ws json).getD 0
      match parseFuel lib fuel (json.drop off) with
      | none => none
      | some (.error e) => some (.error e)
      | some (.ok (obj, eaten)) => some (.ok (obj, eaten + off))
    else if (48 ≤ c ∧ c ≤ 57) ∨ c = 43 ∨ c = 45 then
      some (.ok ((parseNumber lib json).getD (.null, 0)))
    else if c = 116 ∨ c = 102 ∨ c = 110 ∨ c = 84 ∨ c = 70 ∨ c = 78 then
      some (.ok ((parseLiteral json).getD (.null, 0)))
    else if c = 34 ∨ c = 39 then
      match strLoop json c json.length 1 .Raw [] with
      | none => none
      | some (.error e) => some (.error e)
      | some (.ok (str, i)) => some (.ok (.string str, i))
    else if c = 91 then
      arrLoop (parseFuel lib fuel) json json.length 1 []
    else if c = 123 then
      objLoop (parseFuel lib fuel) json json.length 1 []
    else some (.ok (.null, 0))

/-- The function `parse`: every recursive call is on a shorter view, so a depth of
`json.length + 1` is never exhausted. -/
def parse (lib : FloatLib) (json : List Nat) : Outcome :=
  parseFuel lib (json.length + 1) json

/-! ## The serializer -/

/-- The constructor call `std::string(n, ' ')`. -/
def spaces (n : Nat) : List Nat := List.replicate n 32

/-- The loop of main.cpp 303-310 over the entries that are left, in the order the map
yields them; each entry is its key and the text `dump(val, isPretty, depth + 1)`. -/
def writeEntries : List (List Nat × List Nat) → Bool → Nat → List Nat
  | [], _, _ => []
  | (key, text) :: es, isPretty, depth =>
    (if isPretty then spaces ((depth + 1) * 2) else []) ++ key ++ ascii ": " ++ text
      ++ (if es.isEmpty then [] else ascii ",") ++ (if isPretty then ascii "\n" else [])
      ++ writeEntries es isPretty depth

mutual
/-- The function `dump` (main.cpp 268-317).  A `bool` has no case of its own and reaches the
final `else`.  The entries of an object are written in the order `lib.map_order` gives to the
entries of the map. -/
def dump (lib : FloatLib) : Value → Bool → Nat → List Nat
  | .null, _, _ => ascii "null"
  | .int n, _, _ => to_string n
  | .float d, _, _ => lib.to_string d
  | .string s, _, _ => s
  | .array xs, isPretty, depth =>
    if xs.isEmpty then ascii "[]"
    else
      ascii "[" ++ (if isPretty then ascii "\n" else []) ++ dumpElems lib xs isPretty depth
        ++ (if isPretty then spaces (depth * 2) else []) ++ ascii "]"
  | .object kvs, isPretty, depth =>
    if kvs.isEmpty then ascii "\x7b\x7d"
    else
      ascii "\x7b" ++ (if isPretty then ascii "\n" else [])
        ++ writeEntries (lib.map_order (dumpValues lib kvs isPretty depth)) isPretty depth
        ++ (if isPretty then spaces (depth * 2) else []) ++ ascii "\x7d"
  | .bool _, _, _ => ascii "\"unknown\""
/-- The loop of main.cpp 287-292 over the elements that are left. -/
def dumpElems (lib : FloatLib) : List Value → Bool → Nat → List Nat
  | [], _, _ => []
  | x :: xs, isPretty, depth =>
    (if isPretty then spaces ((depth + 1) * 2) else []) ++ dump lib x isPretty (depth + 1)
      ++ (if xs.isEmpty then [] else ascii ",") ++ (if isPretty then ascii "\n" else [])
      ++ dumpElems lib xs isPretty depth
/-- The calls `dump(val, isPretty, depth + 1)` of main.cpp 306, one for each entry of the
map: every entry with its key and the text written for its value, in insertion order. -/
def dumpValues (lib : FloatLib) : List (List Nat × Value) → Bool → Nat →
    List (List Nat × List Nat)
  | [], _, _ => []
  | (key, val) :: kvs, isPretty, depth =>
    (key, dump lib val isPretty (depth + 1)) :: dumpValues lib kvs isPretty depth
end

/-! ## Input texts named in the statements -/

/-- The text `"key":n` of an object entry whose value is the integer `n`. -/
def entryText (kv : List Nat × Int) : List Nat :=
  ascii "\"" ++ kv.1 ++ ascii "\":" ++ to_string kv.2


mutual
/-- A value built only from `Null`, `Int` in the signed 32-bit range, and `Array`. -/
def plainValue : Value → Bool
  | .null => true
  | .int n => decide (-2147483648 ≤ n ∧ n ≤ 2147483647)
  | .array xs => plainValues xs
  | _ => false
/-- Every value of the list is a `plainValue`. -/
def plainValues : List Value → Bool
  | [] => true
  | x :: xs => plainValue x && plainValues xs
end

/-! ## The loop heads that a run reaches -/

/-- The states `(i, res)` in which the array loop of main.cpp 213-228 stands at the head of
an iteration: the start `(1, [])`, and the state after an iteration that appended an
element. -/
inductive ArrReach (sub : List Nat → Outcome) (json : List Nat) : Nat → List Value → Prop
  | start : ArrReach sub json 1 []
  | step {i : Nat} {res : List Value} {obj : Value} {eaten : Nat} :
      ArrReach sub json i res → i < json.length → json.getD i 0 ≠ 93 →
      sub (json.drop i) = some (.ok (obj, eaten)) → eaten ≠ 0 → i + eaten ≤ json.length →
      ArrReach sub json (skipChar json 44 (i + eaten)) (res ++ [obj])

/-- The states `(i, res)` in which the object loop of main.cpp 233-262 stands at the head of
an iteration: the start `(1, [])`, and the state after an iteration that read a key and a
value. -/
inductive ObjReach (sub : List Nat → Outcome) (json : List Nat) :
    Nat → List (List Nat × Value) → Prop
  | start : ObjReach sub json 1 []
  | step {i : Nat} {res : List (List Nat × Value)} {key : List Nat} {keyeaten : Nat}
      {valobj : Value} {valeaten : Nat} :
      ObjReach sub json i res → i < json.length → json.getD i 0 ≠ 125 →
      sub (json.drop i) = some (.ok (.string key, keyeaten)) → keyeaten ≠ 0 →
      i + keyeaten ≤ json.length →
      sub (json.drop (skipChar json 58 (i + keyeaten))) = some (.ok (valobj, valeaten)) →
      valeaten ≠ 0 → skipChar json 58 (i + keyeaten) + valeaten ≤ json.length →
      ObjReach sub json (skipChar json 44 (skipChar json 58 (i + keyeaten) + valeaten))
        (try_emplace res key valobj)

/-! ## Where an exception comes from -/

theorem low_byte_or {p y : Nat} (hp : p < 256) (hy : y < 256) : (p ||| y) % 256 = p ||| y :=
  Nat.mod_eq_of_lt (Nat.or_lt_two_pow (n := 8) hp hy)

theorem and_six_bits_lt (x : Nat) : x &&& 0x3F < 256 :=
  Nat.lt_of_lt_of_le (Nat.and_lt_two_pow x (n := 6) (by decide)) (by decide)

theorem shift_and_mask {c s k : Nat} (h : c < 2 ^ (s + k)) :
    (c >>> s) &&& (2 ^ k - 1) = c >>> s := by
  apply Nat.and_pow_two_sub_one_of_lt_two_pow
  rw [Nat.shiftRight_eq_div_pow]
  apply Nat.div_lt_of_lt_mul
  rw [← Nat.pow_add]
  exact h

theorem shift_lt {c s k : Nat} (h : c < 2 ^ (s + k)) : c >>> s < 2 ^ k := by
  rw [Nat.shiftRight_eq_div_pow]
  apply Nat.div_lt_of_lt_mul
  rw [← Nat.pow_add]
  exact h

theorem utf8Encode_eq (c : Nat) :
    utf8Encode c =
      (if c ≤ 0x7F then .ok [c]
       else if c ≤ 0x7FF then .ok [0xC0 ||| (c >>> 6), 0x80 ||| (c &&& 0x3F)]
       else if c ≤ 0xFFFF then
         .ok [0xE0 ||| (c >>> 12), 0x80 ||| ((c >>> 6) &&& 0x3F), 0x80 ||| (c &&& 0x3F)]
       else if c ≤ 0x10FFFF then
         .ok [0xF0 ||| (c >>> 18), 0x80 ||| ((c >>> 12) &&& 0x3F),
              0x80 ||| ((c >>> 6) &&& 0x3F), 0x80 ||| (c &&& 0x3F)]
       else .error .invalidCodePoint) := by
  have hlow : ∀ x : Nat, (0x80 ||| (x &&& 0x3F)) % 256 = 0x80 ||| (x &&& 0x3F) :=
    fun x => low_byte_or (by decide) (and_six_bits_lt x)
  unfold utf8Encode
  by_cases h1 : c ≤ 0x7F
  · have : c % 256 = c := Nat.mod_eq_of_lt (by omega)
    simp only [if_pos h1, this]
  · by_cases h2 : c ≤ 0x7FF
    · have hm : (c >>> 6) &&& 0x1F = c >>> 6 := shift_and_mask (s := 6) (k := 5) (by omega)
      have hs : c >>> 6 < 256 :=
        Nat.lt_of_lt_of_le (shift_lt (s := 6) (k := 5) (by omega)) (by decide)
      simp only [if_neg h1, if_pos h2, hm, hlow, low_byte_or (show 0xC0 < 256 by decide) hs]
    · by_cases h3 : c ≤ 0xFFFF
      · have hm : (c >>> 12) &&& 0x0F = c >>> 12 :=
          shift_and_mask (s := 12) (k := 4) (by omega)
        have hs : c >>> 12 < 256 :=
          Nat.lt_of_lt_of_le (shift_lt (s := 12) (k := 4) (by omega)) (by decide)
        simp only [if_neg h1, if_neg h2, if_pos h3, hm, hlow,
          low_byte_or (show 0xE0 < 256 by decide) hs]
      · by_cases h4 : c ≤ 0x10FFFF
        · have hm : (c >>> 18) &&& 0x07 = c >>> 18 :=
            shift_and_mask (s := 18) (k := 3) (by omega)
          have hs : c >>> 18 < 256 :=
            Nat.lt_of_lt_of_le (shift_lt (s := 18) (k := 3) (by omega)) (by decide)
          simp only [if_neg h1, if_neg h2, if_neg h3, if_pos h4, hm, hlow,
            low_byte_or (show 0xF0 < 256 by decide) hs]
        · simp only [if_neg h1, if_neg h2, if_neg h3, if_neg h4]

/-- C1: `utf8Encode` is the standard UTF-8 encoder.  A code point up to `0x7F` gives the one
byte `[c]`, up to `0x7FF` the two bytes `[0xC0|(c>>6), 0x80|(c&0x3F)]`, up to `0xFFFF` the
three bytes `[0xE0|(c>>12), 0x80|((c>>6)&0x3F), 0x80|(c&0x3F)]`, up to `0x10FFFF` the four
bytes `[0xF0|(c>>18), 0x80|((c>>12)&0x3F), 0x80|((c>>6)&0x3F), 0x80|(c&0x3F)]`; the
invalid-code-point error is raised exactly when `c > 0x10FFFF`. -/
theorem utf8Encode_standard (c : Nat) :
    utf8Encode c =
      (if c ≤ 0x7F then .ok [c]
       else if c ≤ 0x7FF then .ok [0xC0 ||| (c >>> 6), 0x80 ||| (c &&& 0x3F)]
       else if c ≤ 0xFFFF then
         .ok [0xE0 ||| (c >>> 12), 0x80 ||| ((c >>> 6) &&& 0x3F), 0x80 ||| (c &&& 0x3F)]
       else if c ≤ 0x10FFFF then
         .ok [0xF0 ||| (c >>> 18), 0x80 ||| ((c >>> 12) &&& 0x3F),
              0x80 ||| ((c >>> 6) &&& 0x3F), 0x80 ||| (c &&& 0x3F)]
       else .error .invalidCodePoint)
    ∧ (utf8Encode c = .error .invalidCodePoint ↔ 0x10FFFF < c) := by
  refine ⟨utf8Encode_eq c, ?_⟩
  rw [utf8Encode_eq c]
  split_ifs <;> constructor <;> intro h <;> first | omega | rfl | cases h



/-! ## Decimal text -/

theorem isDigit_iff (c : Nat) : isDigit c = true ↔ 48 ≤ c ∧ c ≤ 57 := by
  simp [isDigit]

theorem decVal_append (xs ys : List Nat) :
    decVal (xs ++ ys) = ys.foldl (fun acc c => acc * 10 + (c - 48)) (decVal xs) := by
  simp [decVal, List.foldl_append]

theorem decVal_snoc (xs : List Nat) (d : Nat) : decVal (xs ++ [d]) = decVal xs * 10 + (d - 48) := by
  simp [decVal_append]

/-- With more fuel than the number, `digitsAux` writes a non-empty run of digits whose
value is the number. -/
theorem digitsAux_spec : ∀ (fuel n : Nat) (acc : List Nat), n < fuel →
    ∃ ds, digitsAux fuel n acc = ds ++ acc ∧ ds ≠ [] ∧ (∀ c ∈ ds, isDigit c = true) ∧
      decVal ds = n
  | 0, n, _, h => absurd h (Nat.not_lt_zero n)
  | fuel + 1, n, acc, h => by
    unfold digitsAux
    by_cases h10 : n < 10
    · refine ⟨[48 + n], by simp [h10], by simp, ?_, by simp [decVal]⟩
      intro c hc
      simp only [List.mem_singleton] at hc
      rw [isDigit_iff]; omega
    · obtain ⟨ds, h1, _, h3, h4⟩ :=
        digitsAux_spec fuel (n / 10) ((48 + n % 10) :: acc) (by omega)
      refine ⟨ds ++ [48 + n % 10], by simp [h10, h1], by simp, ?_, ?_⟩
      · intro c hc
        rcases List.mem_append.mp hc with hc | hc
        · exact h3 c hc
        · simp only [List.mem_singleton] at hc
          rw [isDigit_iff]; omega
      · rw [decVal_snoc, h4]; omega

/-- The text of `std::to_string(n)`: a `-` when `n < 0`, then a non-empty run of digits
that writes `|n|`. -/
theorem to_string_shape (n : Int) :
    ∃ ds, ds ≠ [] ∧ (∀ c ∈ ds, isDigit c = true) ∧ decVal ds = n.natAbs ∧
      to_string n = (if n < 0 then [45] else []) ++ ds := by
  obtain ⟨ds, h1, h2, h3, h4⟩ := digitsAux_spec (n.natAbs + 1) n.natAbs [] (Nat.lt_succ_self _)
  refine ⟨ds, h2, h3, h4, ?_⟩
  unfold to_string
  by_cases hn : n < 0 <;> simp [hn, h1]


/-! ## The number branch on the text of an integer -/

theorem takeWhile_run (p : Nat → Bool) :
    ∀ (ds rest : List Nat), (∀ c ∈ ds, p c = true) → (∀ c ∈ rest.head?, p c = false) →
      (ds ++ rest).takeWhile p = ds
  | [], [], _, _ => rfl
  | [], r :: rest, _, h2 => by
    have := h2 r (by simp)
    simp [List.takeWhile, this]
  | d :: ds, rest, h1, h2 => by
    have hd := h1 d (by simp)
    have := takeWhile_run p ds rest (fun c hc => h1 c (by simp [hc])) h2
    simp [List.takeWhile, hd, this]

/-- What may follow the digits of an integer for the number pattern to stop there: no
digit, no `.`, no `e`, no `E`. -/
theorem matchNum_digits (ds rest : List Nat) (hne : ds ≠ [])
    (hd : ∀ c ∈ ds, isDigit c = true)
    (hstop : ∀ c ∈ rest.head?, isDigit c = false ∧ c ≠ 46 ∧ c ≠ 101 ∧ c ≠ 69) :
    matchNum (ds ++ rest) = some ds.length := by
  have htw : (ds ++ rest).takeWhile isDigit = ds :=
    takeWhile_run isDigit ds rest hd (fun c hc => (hstop c hc).1)
  obtain ⟨d, ds', rfl⟩ := List.exists_cons_of_ne_nil hne
  have hd0 := (isDigit_iff d).mp (hd d (by simp))
  have h43 : d ≠ 43 := by omega
  have h45 : d ≠ 45 := by omega
  have hr46 : (rest.head? == some 46) = false := by
    cases rest with
    | nil => rfl
    | cons r rs => have := (hstop r (by simp)).2.1; simp [this]
  have hr101 : (rest.head? == some 101) = false := by
    cases rest with
    | nil => rfl
    | cons r rs => have := (hstop r (by simp)).2.2.1; simp [this]
  have hr69 : (rest.head? == some 69) = false := by
    cases rest with
    | nil => rfl
    | cons r rs => have := (hstop r (by simp)).2.2.2; simp [this]
  unfold matchNum
  simp only [List.cons_append, List.head?_cons] at htw ⊢
  simp [h43, h45, htw, hr46, hr101, hr69]

theorem matchNum_neg_digits (ds rest : List Nat) (hne : ds ≠ [])
    (hd : ∀ c ∈ ds, isDigit c = true)
    (hstop : ∀ c ∈ rest.head?, isDigit c = false ∧ c ≠ 46 ∧ c ≠ 101 ∧ c ≠ 69) :
    matchNum (45 :: (ds ++ rest)) = some (ds.length + 1) := by
  have htw : (ds ++ rest).takeWhile isDigit = ds :=
    takeWhile_run isDigit ds rest hd (fun c hc => (hstop c hc).1)
  have hr46 : (rest.head? == some 46) = false := by
    cases rest with
    | nil => rfl
    | cons r rs => have := (hstop r (by simp)).2.1; simp [this]
  have hr101 : (rest.head? == some 101) = false := by
    cases rest with
    | nil => rfl
    | cons r rs => have := (hstop r (by simp)).2.2.1; simp [this]
  have hr69 : (rest.head? == some 69) = false := by
    cases rest with
    | nil => rfl
    | cons r rs => have := (hstop r (by simp)).2.2.2; simp [this]
  have hnil : ds.isEmpty = false := by cases ds <;> simp_all
  unfold matchNum
  simp [htw, hnil, hr46, hr101, hr69]
  omega


theorem all_isDigit {ds : List Nat} (hd : ∀ c ∈ ds, isDigit c = true) :
    ds.all isDigit = true := by
  simpa [List.all_eq_true] using hd

theorem try_parse_int_digits (ds : List Nat) (hne : ds ≠ [])
    (hd : ∀ c ∈ ds, isDigit c = true) (hr : decVal ds ≤ 2147483647) :
    try_parse_int ds = some (decVal ds : Int) := by
  obtain ⟨d, ds', rfl⟩ := List.exists_cons_of_ne_nil hne
  have hd0 := (isDigit_iff d).mp (hd d (by simp))
  have h45 : d ≠ 45 := by omega
  have hall := all_isDigit hd
  unfold try_parse_int
  simp only [List.head?_cons]
  simp [h45, hall]
  omega

theorem try_parse_int_neg (ds : List Nat) (hne : ds ≠ [])
    (hd : ∀ c ∈ ds, isDigit c = true) (hr : decVal ds ≤ 2147483648) :
    try_parse_int (45 :: ds) = some (-(decVal ds : Int)) := by
  have hall := all_isDigit hd
  have hnil : ds.isEmpty = false := by cases ds <;> simp_all
  unfold try_parse_int
  simp [hall, hnil]
  omega

theorem searchNum_of_match {c : Nat} {cs : List Nat} {k : Nat}
    (h : matchNum (c :: cs) = some k) : searchNum (c :: cs) = some ((c :: cs).take k) := by
  rw [searchNum, h]

theorem parseNumber_of_int {lib : FloatLib} {json str : List Nat} {n : Int}
    (h1 : searchNum json = some str) (h2 : try_parse_int str = some n) :
    parseNumber lib json = some (.int n, str.length) := by
  rw [parseNumber, h1]
  simp only [h2]

/-- The number branch reads back the text of a 32-bit integer, whatever follows it, as long
as what follows does not continue the number pattern. -/
theorem parseNumber_to_string (lib : FloatLib) (n : Int)
    (hn : -2147483648 ≤ n ∧ n ≤ 2147483647) (rest : List Nat)
    (hstop : ∀ c ∈ rest.head?, isDigit c = false ∧ c ≠ 46 ∧ c ≠ 101 ∧ c ≠ 69) :
    parseNumber lib (to_string n ++ rest) = some (.int n, (to_string n).length) := by
  obtain ⟨ds, hne, hd, hv, hs⟩ := to_string_shape n
  by_cases hneg : n < 0
  · have hs' : to_string n = 45 :: ds := by simpa [hneg] using hs
    have hm := searchNum_of_match (matchNum_neg_digits ds rest hne hd hstop)
    have ht := try_parse_int_neg ds hne hd (by omega)
    have hval : -(decVal ds : Int) = n := by omega
    have htake : List.take (ds.length + 1) (45 :: (ds ++ rest)) = 45 :: ds := by
      simp
    rw [htake] at hm
    rw [hval] at ht
    rw [hs']
    exact parseNumber_of_int hm ht
  · have hs' : to_string n = ds := by simpa [hneg] using hs
    have hval : (decVal ds : Int) = n := by omega
    have ht := try_parse_int_digits ds hne hd (by omega)
    rw [hval] at ht
    have hm0 := matchNum_digits ds rest hne hd hstop
    rw [hs']
    obtain ⟨d, ds', rfl⟩ := List.exists_cons_of_ne_nil hne
    rw [List.cons_append] at hm0 ⊢
    have hm := searchNum_of_match hm0
    have htake : List.take (d :: ds').length (d :: (ds' ++ rest)) = d :: ds' := by
      simp
    rw [htake] at hm
    exact parseNumber_of_int hm ht

/-- The first byte of `std::to_string(n)` is a digit or `-`. -/
theorem to_string_head (n : Int) :
    ∃ c tl, to_string n = c :: tl ∧ ((48 ≤ c ∧ c ≤ 57) ∨ c = 45) := by
  obtain ⟨ds, hne, hd, _, hs⟩ := to_string_shape n
  by_cases hneg : n < 0
  · exact ⟨45, ds, by simpa [hneg] using hs, Or.inr rfl⟩
  · obtain ⟨d, ds', rfl⟩ := List.exists_cons_of_ne_nil hne
    exact ⟨d, ds', by simpa [hneg] using hs, Or.inl ((isDigit_iff d).mp (hd d (by simp)))⟩

/-- With any positive fuel, `parse` reads back the text of a 32-bit integer, whatever
follows it, as long as what follows does not continue the number pattern. -/
theorem parseFuel_to_string (lib : FloatLib) (fuel : Nat) (n : Int)
    (hn : -2147483648 ≤ n ∧ n ≤ 2147483647) (rest : List Nat)
    (hstop : ∀ c ∈ rest.head?, isDigit c = false ∧ c ≠ 46 ∧ c ≠ 101 ∧ c ≠ 69) :
    parseFuel lib (fuel + 1) (to_string n ++ rest) =
      some (.ok (.int n, (to_string n).length)) := by
  have hp := parseNumber_to_string lib n hn rest hstop
  obtain ⟨c, tl, hs, hc⟩ := to_string_head n
  rw [hs] at hp ⊢
  have hws : find_first_not_of_ws (c :: tl ++ rest) = some 0 := by
    have : ¬ (c = 32 ∨ c = 10 ∨ c = 13 ∨ c = 9 ∨ c = 11 ∨ c = 12) := by omega
    simp only [List.cons_append, find_first_not_of_ws]
    simp only [not_or] at this
    simp [this]
  have hcond : (48 ≤ c ∧ c ≤ 57) ∨ c = 43 ∨ c = 45 := by omega
  rw [List.cons_append] at hp hws ⊢
  unfold parseFuel
  simp only [hws]
  simp [hcond, hp]


theorem dump_int (lib : FloatLib) (n : Int) (isPretty : Bool) (depth : Nat) :
    dump lib (.int n) isPretty depth = to_string n := by
  rw [dump]

/-- C2: integer round trip.  For every `n` in the signed 32-bit range, `dump (Int n)` is the
decimal text of `n` (`std::to_string(n)`: a `-` when `n < 0`, then a non-empty run of digits
that writes `|n|`), and `parse` of it returns `(Int n, k)` with `k` the length of that text;
in particular `parse("123") = (Int 123, 3)`. -/
theorem parse_dump_int (lib : FloatLib) (n : Int) (isPretty : Bool) (depth : Nat)
    (hn : -2147483648 ≤ n ∧ n ≤ 2147483647) :
    (∃ ds, ds ≠ [] ∧ (∀ c ∈ ds, isDigit c = true) ∧ decVal ds = n.natAbs ∧
      dump lib (.int n) isPretty depth = (if n < 0 then ascii "-" else []) ++ ds)
    ∧ parse lib (dump lib (.int n) isPretty depth) =
        some (.ok (.int n, (dump lib (.int n) isPretty depth).length))
    ∧ parse lib (ascii "123") = some (.ok (.int 123, 3)) := by
  have key : ∀ m : Int, -2147483648 ≤ m ∧ m ≤ 2147483647 →
      parse lib (to_string m) = some (.ok (.int m, (to_string m).length)) := by
    intro m hm
    have := parseFuel_to_string lib (to_string m).length m hm [] (by simp)
    rwa [List.append_nil] at this
  refine ⟨?_, ?_, ?_⟩
  · rw [dump_int]
    exact to_string_shape n
  · rw [dump_int]
    exact key n hn
  · have h123 : to_string 123 = ascii "123" := by decide
    have := key 123 (by decide)
    rwa [h123] at this

theorem parse_dump_int_witness :
    (-2147483648 ≤ (-42 : Int) ∧ (-42 : Int) ≤ 2147483647)
    ∧ (∃ ds, ds ≠ [] ∧ (∀ c ∈ ds, isDigit c = true) ∧ decVal ds = (-42 : Int).natAbs ∧
      dump noFloat (.int (-42)) false 0 = (if (-42 : Int) < 0 then ascii "-" else []) ++ ds)
    ∧ parse noFloat (dump noFloat (.int (-42)) false 0) =
        some (.ok (.int (-42), (dump noFloat (.int (-42)) false 0).length))
    ∧ parse noFloat (ascii "123") = some (.ok (.int 123, 3)) :=
  ⟨by decide, parse_dump_int noFloat (-42) false 0 (by decide)⟩


/-! ## The literal branch -/

theorem boolWords_eq : boolWords =
    [[116, 114, 117, 101], [102, 97, 108, 115, 101], [110, 117, 108, 108],
     [84, 114, 117, 101], [70, 97, 108, 115, 101], [78, 117, 108, 108]] := by
  decide

theorem parseLiteral_eq (json : List Nat) :
    parseLiteral json =
      match searchBool json with
      | none => none
      | some str =>
        if str = [116, 114, 117, 101] ∨ str = [84, 114, 117, 101] then
          some (.bool true, str.length)
        else if str = [102, 97, 108, 115, 101] ∨ str = [70, 97, 108, 115, 101] then
          some (.bool false, str.length)
        else if str = [110, 117, 108, 108] ∨ str = [78, 117, 108, 108] then
          some (.null, str.length)
        else none := by
  rfl

/-- C3: for every text `t`, `parse` of one of the six literal words followed by `t` returns
the word's value and the word's length: `true`/`True` give `(Bool true, 4)`,
`false`/`False` give `(Bool false, 5)`, `null`/`Null` give `(Null, 4)`. -/
theorem parse_literal_words (lib : FloatLib) (t : List Nat) :
    parse lib (ascii "true" ++ t) = some (.ok (.bool true, 4))
    ∧ parse lib (ascii "True" ++ t) = some (.ok (.bool true, 4))
    ∧ parse lib (ascii "false" ++ t) = some (.ok (.bool false, 5))
    ∧ parse lib (ascii "False" ++ t) = some (.ok (.bool false, 5))
    ∧ parse lib (ascii "null" ++ t) = some (.ok (.null, 4))
    ∧ parse lib (ascii "Null" ++ t) = some (.ok (.null, 4)) := by
  refine ⟨?_, ?_, ?_, ?_, ?_, ?_⟩
  · show parse lib (116 :: 114 :: 117 :: 101 :: t) = _
    simp [parse, parseFuel, find_first_not_of_ws, parseLiteral_eq, searchBool, boolWords_eq,
      List.isPrefixOf]
  · show parse lib (84 :: 114 :: 117 :: 101 :: t) = _
    simp [parse, parseFuel, find_first_not_of_ws, parseLiteral_eq, searchBool, boolWords_eq,
      List.isPrefixOf]
  · show parse lib (102 :: 97 :: 108 :: 115 :: 101 :: t) = _
    simp [parse, parseFuel, find_first_not_of_ws, parseLiteral_eq, searchBool, boolWords_eq,
      List.isPrefixOf]
  · show parse lib (70 :: 97 :: 108 :: 115 :: 101 :: t) = _
    simp [parse, parseFuel, find_first_not_of_ws, parseLiteral_eq, searchBool, boolWords_eq,
      List.isPrefixOf]
  · show parse lib (110 :: 117 :: 108 :: 108 :: t) = _
    simp [parse, parseFuel, find_first_not_of_ws, parseLiteral_eq, searchBool, boolWords_eq,
      List.isPrefixOf]
  · show parse lib (78 :: 117 :: 108 :: 108 :: t) = _
    simp [parse, parseFuel, find_first_not_of_ws, parseLiteral_eq, searchBool, boolWords_eq,
      List.isPrefixOf]


/-! ## One iteration of the array loop -/

theorem getD_at_length (pre rest : List Nat) :
    (pre ++ rest).getD pre.length 0 = rest.headD 0 := by
  induction pre with
  | nil => cases rest <;> rfl
  | cons p ps ih => simpa using ih

/-- The loop is over once the offset has reached the end of the view. -/
theorem arrLoop_at_end (sub : List Nat → Outcome) (json : List Nat) (fuel i : Nat)
    (res : List Value) (h : json.length ≤ i) :
    arrLoop sub json fuel i res = some (.ok (.array res, i)) := by
  have : ¬ i < json.length := by omega
  cases fuel <;> simp [arrLoop, this]

/-- A `]` at the offset ends the loop and is consumed. -/
theorem arrLoop_close (sub : List Nat → Outcome) (pre rest : List Nat) (fuel : Nat)
    (res : List Value) :
    arrLoop sub (pre ++ 93 :: rest) (fuel + 1) pre.length res =
      some (.ok (.array res, pre.length + 1)) := by
  have h := getD_at_length pre (93 :: rest)
  simp only [List.headD_cons] at h
  have hlt : pre.length < (pre ++ 93 :: rest).length := by simp
  rw [arrLoop, if_pos hlt, h, if_pos rfl]

/-- An element that the sub-parse reads in full is appended; one `,` after it is skipped. -/
theorem arrLoop_elem (sub : List Nat → Outcome) (pre elem rest : List Nat) (fuel : Nat)
    (res : List Value) (obj : Value) (hne : elem ≠ []) (hhead : elem.head? ≠ some 93)
    (hsub : sub (elem ++ rest) = some (.ok (obj, elem.length))) :
    arrLoop sub (pre ++ (elem ++ rest)) (fuel + 1) pre.length res =
      arrLoop sub (pre ++ (elem ++ rest)) fuel
        (if rest.head? = some 44 then pre.length + elem.length + 1
         else pre.length + elem.length)
        (res ++ [obj]) := by
  obtain ⟨e, es, rfl⟩ := List.exists_cons_of_ne_nil hne
  have he : e ≠ 93 := by simpa using hhead
  have h1 := getD_at_length pre (e :: es ++ rest)
  simp only [List.cons_append, List.headD_cons] at h1
  have h2 : (pre ++ (e :: es ++ rest)).getD (pre.length + (e :: es).length) 0 = rest.headD 0 := by
    have := getD_at_length (pre ++ (e :: es)) rest
    simpa [List.append_assoc] using this
  have hskip : skipChar (pre ++ (e :: es ++ rest)) 44 (pre.length + (e :: es).length) =
      if rest.head? = some 44 then pre.length + (e :: es).length + 1
      else pre.length + (e :: es).length := by
    unfold skipChar
    rw [h2]
    cases rest with
    | nil => simp
    | cons r rs => simp
  have hlt : pre.length < (pre ++ (e :: es ++ rest)).length := by simp
  have hdrop : (pre ++ (e :: es ++ rest)).drop pre.length = e :: es ++ rest := by simp
  have hle : ¬ (pre ++ (e :: es ++ rest)).length < pre.length + (e :: es).length := by
    simp
  rw [arrLoop, if_pos hlt]
  simp only [List.cons_append] at h1 hdrop hsub hle hskip ⊢
  rw [h1, if_neg he, hdrop, hsub]
  simp only []
  rw [if_neg (by simp), if_neg hle, hskip]


/-! ## Arrays of integers -/

theorem intercalate_one (sep x : List Nat) : sep.intercalate [x] = x := by
  simp [List.intercalate]

theorem intercalate_two (sep x y : List Nat) (ys : List (List Nat)) :
    sep.intercalate (x :: y :: ys) = x ++ (sep ++ sep.intercalate (y :: ys)) := by
  simp [List.intercalate]

/-- The array loop over the texts of integers joined by `,` and closed by `]`, started at the
first of them: it appends each integer and stops behind the `]`. -/
theorem arrLoop_ints (lib : FloatLib) (f : Nat) :
    ∀ (ns : List Int) (n : Int) (pre : List Nat) (res : List Value) (fuel : Nat),
      (∀ m ∈ n :: ns, -2147483648 ≤ m ∧ m ≤ 2147483647) →
      (pre ++ ([44].intercalate ((n :: ns).map to_string) ++ [93])).length ≤
        pre.length + fuel →
      arrLoop (parseFuel lib (f + 1))
          (pre ++ ([44].intercalate ((n :: ns).map to_string) ++ [93])) fuel pre.length res =
        some (.ok (.array (res ++ (n :: ns).map .int),
          (pre ++ ([44].intercalate ((n :: ns).map to_string) ++ [93])).length))
  | [], n, pre, res, fuel, hr, hf => by
    obtain ⟨c, tl, hs, hc⟩ := to_string_head n
    have hne : to_string n ≠ [] := by rw [hs]; simp
    have hhead : (to_string n).head? ≠ some 93 := by rw [hs]; simp; omega
    have hsub := parseFuel_to_string lib f n (hr n (by simp)) [93] (by simp [isDigit])
    simp only [List.map_cons, List.map_nil, intercalate_one] at hf ⊢
    have hlen : 0 < (to_string n).length := List.length_pos.mpr hne
    simp only [List.length_append, List.length_singleton] at hf
    obtain ⟨fuel1, rfl⟩ : ∃ k, fuel = k + 1 := ⟨fuel - 1, by omega⟩
    obtain ⟨fuel2, rfl⟩ : ∃ k, fuel1 = k + 1 := ⟨fuel1 - 1, by omega⟩
    rw [arrLoop_elem _ pre (to_string n) [93] _ res (.int n) hne hhead hsub]
    simp only [List.head?_cons, Option.some.injEq, Nat.reduceEqDiff, if_false]
    have := arrLoop_close (parseFuel lib (f + 1)) (pre ++ to_string n) [] fuel2
      (res ++ [.int n])
    simp only [List.append_assoc, List.length_append] at this
    rw [this]
    simp [Nat.add_assoc]
  | m :: ms, n, pre, res, fuel, hr, hf => by
    obtain ⟨c, tl, hs, hc⟩ := to_string_head n
    have hne : to_string n ≠ [] := by rw [hs]; simp
    have hhead : (to_string n).head? ≠ some 93 := by rw [hs]; simp; omega
    have hsub := parseFuel_to_string lib f n (hr n (by simp))
      (44 :: ([44].intercalate ((m :: ms).map to_string) ++ [93])) (by simp [isDigit])
    have e : [44].intercalate ((n :: m :: ms).map to_string) ++ [93] =
        to_string n ++ (44 :: ([44].intercalate ((m :: ms).map to_string) ++ [93])) := by
      rw [List.map_cons, List.map_cons, intercalate_two, List.append_assoc, List.append_assoc]
      rfl
    have ih := fun fuel1 => arrLoop_ints lib f ms m (pre ++ (to_string n ++ [44]))
      (res ++ [.int n]) fuel1 (fun k hk => hr k (List.mem_cons_of_mem _ hk))
    have hres : res ++ [Value.int n] ++ (m :: ms).map Value.int =
        res ++ (n :: m :: ms).map Value.int := by simp
    rw [e] at hf ⊢
    rw [hres] at ih
    generalize [44].intercalate ((m :: ms).map to_string) ++ [93] = T at *
    have hj : (pre ++ (to_string n ++ [44])) ++ T = pre ++ (to_string n ++ 44 :: T) := by simp
    have hidx : (pre ++ (to_string n ++ [44])).length = pre.length + (to_string n).length + 1 := by
      simp [Nat.add_assoc]
    rw [hj, hidx] at ih
    obtain ⟨fuel1, rfl⟩ : ∃ k, fuel = k + 1 := ⟨fuel - 1, by
      simp only [List.length_append, List.length_cons] at hf; omega⟩
    rw [arrLoop_elem _ pre (to_string n) _ _ res (.int n) hne hhead hsub]
    simp only [List.head?_cons, if_true]
    apply ih
    simp only [List.length_append, List.length_cons] at hf ⊢
    omega


/-- The array branch of `parse`: a view that starts with `[` is handed to the array loop at
offset 1. -/
theorem parseFuel_bracket (lib : FloatLib) (fuel : Nat) (body : List Nat) :
    parseFuel lib (fuel + 1) (91 :: body) =
      arrLoop (parseFuel lib fuel) (91 :: body) (91 :: body).length 1 [] := by
  rw [parseFuel]
  simp [find_first_not_of_ws]

/-- C4: for every finite list `n1..nk` (`k ≥ 0`) of signed 32-bit integers, `parse` of
`[` + the decimal texts joined by `,` + `]` returns the array `[Int n1, ..., Int nk]` in that
order, and `consumed` is the length of the whole text; in particular `parse("[1,2,3]")` is an
array of three `Int`s with `consumed = 7`. -/
theorem parse_int_array (lib : FloatLib) (ns : List Int)
    (hr : ∀ n ∈ ns, -2147483648 ≤ n ∧ n ≤ 2147483647) :
    parse lib (ascii "[" ++ (ascii ",").intercalate (ns.map to_string) ++ ascii "]") =
        some (.ok (.array (ns.map .int),
          (ascii "[" ++ (ascii ",").intercalate (ns.map to_string) ++ ascii "]").length))
    ∧ parse lib (ascii "[1,2,3]") = some (.ok (.array [.int 1, .int 2, .int 3], 7)) := by
  have key : ∀ ms : List Int, (∀ n ∈ ms, -2147483648 ≤ n ∧ n ≤ 2147483647) →
      parse lib (ascii "[" ++ (ascii ",").intercalate (ms.map to_string) ++ ascii "]") =
        some (.ok (.array (ms.map .int),
          (ascii "[" ++ (ascii ",").intercalate (ms.map to_string) ++ ascii "]").length)) := by
    intro ms hms
    cases ms with
    | nil => rfl
    | cons n ns =>
      have h := arrLoop_ints lib ([44].intercalate ((n :: ns).map to_string) ++ [93]).length
        ns n [91] [] ([91] ++ ([44].intercalate ((n :: ns).map to_string) ++ [93])).length
        hms (by simp)
      have ht : ascii "[" ++ (ascii ",").intercalate ((n :: ns).map to_string) ++ ascii "]" =
          91 :: ([44].intercalate ((n :: ns).map to_string) ++ [93]) := rfl
      rw [ht, parse, parseFuel_bracket, List.length_cons]
      simpa using h
  refine ⟨key ns hr, ?_⟩
  have := key [1, 2, 3] (by decide)
  exact this

theorem parse_int_array_witness :
    (∀ n ∈ [7, -12], -2147483648 ≤ n ∧ n ≤ (2147483647 : Int))
    ∧ parse noFloat (ascii "[" ++ (ascii ",").intercalate ([7, -12].map to_string) ++ ascii "]")
        = some (.ok (.array ([7, -12].map .int),
          (ascii "[" ++ (ascii ",").intercalate ([7, -12].map to_string) ++ ascii "]").length))
    ∧ parse noFloat (ascii "[1,2,3]") = some (.ok (.array [.int 1, .int 2, .int 3], 7)) :=
  ⟨by decide, parse_int_array noFloat [7, -12] (by decide)⟩


/-! ## Fuel: the depth bound of `parseFuel` does not matter once it exceeds the length -/

/-- The array loop only consults `sub` on the views `json.substr(i)` with `i ≥ 1`. -/
theorem arrLoop_congr (sub sub' : List Nat → Outcome) (json : List Nat)
    (h : ∀ i, 1 ≤ i → sub (json.drop i) = sub' (json.drop i)) :
    ∀ (fuel i : Nat) (res : List Value), 1 ≤ i →
      arrLoop sub json fuel i res = arrLoop sub' json fuel i res
  | 0, i, res, _ => by simp [arrLoop]
  | fuel + 1, i, res, hi => by
    rw [arrLoop, arrLoop, h i hi]
    split_ifs with h1 h2
    · rfl
    · cases hs : sub' (json.drop i) with
      | none => rfl
      | some r =>
        cases r with
        | error e => rfl
        | ok p =>
          obtain ⟨obj, eaten⟩ := p
          simp only []
          split_ifs
          · rfl
          · rfl
          · exact arrLoop_congr sub sub' json h fuel _ _ (by unfold skipChar; split_ifs <;> omega)
    · rfl

/-- The object loop only consults `sub` on the views `json.substr(i)` with `i ≥ 1`. -/
theorem objLoop_congr (sub sub' : List Nat → Outcome) (json : List Nat)
    (h : ∀ i, 1 ≤ i → sub (json.drop i) = sub' (json.drop i)) :
    ∀ (fuel i : Nat) (res : List (List Nat × Value)), 1 ≤ i →
      objLoop sub json fuel i res = objLoop sub' json fuel i res
  | 0, i, res, _ => by simp [objLoop]
  | fuel + 1, i, res, hi => by
    rw [objLoop, objLoop, h i hi]
    split_ifs with h1 h2
    · rfl
    · cases hs : sub' (json.drop i) with
      | none => rfl
      | some r =>
        cases r with
        | error e => rfl
        | ok p =>
          obtain ⟨keyobj, keyeaten⟩ := p
          simp only []
          by_cases h3 : keyeaten = 0
          · simp only [if_pos h3]
          · simp only [if_neg h3]
            cases keyobj with
            | string key =>
              simp only []
              by_cases h4 : json.length < i + keyeaten
              · simp only [if_pos h4]
              · simp only [if_neg h4]
                have hi1 : 1 ≤ skipChar json 58 (i + keyeaten) := by
                  unfold skipChar; split_ifs <;> omega
                rw [h _ hi1]
                cases hv : sub' (json.drop (skipChar json 58 (i + keyeaten))) with
                | none => rfl
                | some r =>
                  cases r with
                  | error e => rfl
                  | ok p =>
                    obtain ⟨valobj, valeaten⟩ := p
                    simp only []
                    by_cases h5 : valeaten = 0
                    · simp only [if_pos h5]
                    · simp only [if_neg h5]
                      by_cases h6 : json.length < skipChar json 58 (i + keyeaten) + valeaten
                      · simp only [if_pos h6]
                      · simp only [if_neg h6]
                        exact objLoop_congr sub sub' json h fuel _ _
                          (by unfold skipChar; split_ifs <;> omega)
            | _ => rfl
    · rfl

/-- Any two depth bounds above the length of the view give the same result. -/
theorem parseFuel_stable (lib : FloatLib) :
    ∀ (n : Nat) (json : List Nat), json.length = n → ∀ g g' : Nat,
      json.length ≤ g → json.length ≤ g' →
      parseFuel lib (g + 1) json = parseFuel lib (g' + 1) json := by
  intro n
  induction n using Nat.strong_induction_on with
  | _ n ih =>
    intro json hn g g' hg hg'
    cases json with
    | nil => simp [parseFuel]
    | cons c cs =>
      have hsub : ∀ i, 1 ≤ i →
          parseFuel lib g ((c :: cs).drop i) = parseFuel lib g' ((c :: cs).drop i) := by
        intro i hi
        have hlen : ((c :: cs).drop i).length < n := by
          rw [List.length_drop, hn]; rw [← hn]; simp; omega
        simp only [List.length_cons] at hg hg' hn
        obtain ⟨g0, rfl⟩ : ∃ k, g = k + 1 := ⟨g - 1, by omega⟩
        obtain ⟨g0', rfl⟩ : ∃ k, g' = k + 1 := ⟨g' - 1, by omega⟩
        exact ih _ hlen _ rfl g0 g0' (by omega) (by omega)
      rw [parseFuel, parseFuel]
      rw [arrLoop_congr _ _ _ hsub _ 1 [] (Nat.le_refl 1),
        objLoop_congr _ _ _ hsub _ 1 [] (Nat.le_refl 1)]
      by_cases hws : (find_first_not_of_ws (c :: cs)).isSome ∧
          find_first_not_of_ws (c :: cs) ≠ some 0
      · have hoff : 1 ≤ (find_first_not_of_ws (c :: cs)).getD 0 := by
          obtain ⟨h1, h2⟩ := hws
          cases hf : find_first_not_of_ws (c :: cs) with
          | none => rw [hf] at h1; cases h1
          | some k =>
            rw [hf] at h2
            have : k ≠ 0 := fun hk => h2 (by rw [hk])
            simp only [Option.getD_some]; omega
        simp only [List.isEmpty_cons, Bool.false_eq_true, if_false, if_pos hws]
        rw [hsub _ hoff]
      · simp only [List.isEmpty_cons, Bool.false_eq_true, if_false, if_neg hws]

/-- The result of `parse` is the result at every depth bound above the length. -/
theorem parseFuel_eq_parse (lib : FloatLib) (json : List Nat) (fuel : Nat)
    (h : json.length < fuel) : parseFuel lib fuel json = parse lib json := by
  obtain ⟨g, rfl⟩ : ∃ k, fuel = k + 1 := ⟨fuel - 1, by omega⟩
  exact parseFuel_stable lib _ json rfl g json.length (by omega) (Nat.le_refl _)


/-! ## The string loop in the `Raw` phase -/

/-- In the `Raw` phase the loop copies every byte up to the closing quote and stops behind
the quote. -/
theorem strLoop_raw (q : Nat) (hq : q ≠ 92) :
    ∀ (s pre t acc : List Nat) (fuel : Nat), (∀ c ∈ s, c ≠ 92 ∧ c ≠ q) → s.length < fuel →
      strLoop (pre ++ (s ++ q :: t)) q fuel pre.length .Raw acc =
        some (.ok (acc ++ s, pre.length + s.length + 1))
  | [], pre, t, acc, fuel, _, hf => by
    obtain ⟨fuel1, rfl⟩ : ∃ k, fuel = k + 1 := ⟨fuel - 1, by simp at hf; omega⟩
    have hlt : pre.length < (pre ++ ([] ++ q :: t)).length := by simp
    have hch := getD_at_length pre ([] ++ q :: t)
    simp only [List.nil_append, List.headD_cons] at hch hlt ⊢
    rw [strLoop, if_pos hlt]
    simp only [hch, if_neg hq, if_true]
    simp
  | c :: s, pre, t, acc, fuel, hs, hf => by
    obtain ⟨fuel1, rfl⟩ : ∃ k, fuel = k + 1 := ⟨fuel - 1, by simp at hf; omega⟩
    have hc := hs c (by simp)
    have hlt : pre.length < (pre ++ (c :: s ++ q :: t)).length := by simp
    have hch := getD_at_length pre (c :: s ++ q :: t)
    have ih := strLoop_raw q hq s (pre ++ [c]) t (acc ++ [c]) fuel1
      (fun d hd => hs d (List.mem_cons_of_mem _ hd)) (by simp at hf; omega)
    have hj : (pre ++ [c]) ++ (s ++ q :: t) = pre ++ (c :: s ++ q :: t) := by simp
    have hidx : (pre ++ [c]).length = pre.length + 1 := by simp
    rw [hj, hidx] at ih
    simp only [List.cons_append, List.headD_cons] at hch hlt ih ⊢
    rw [strLoop, if_pos hlt]
    simp only [hch, if_neg hc.1, if_neg hc.2]
    rw [ih]
    simp [Nat.add_assoc, Nat.add_comm 1]

/-- The string branch of `parse`: a view that starts with a quote is handed to the string
loop at offset 1 in the `Raw` phase. -/
theorem parseFuel_quote (lib : FloatLib) (fuel q : Nat) (hq : q = 34 ∨ q = 39)
    (body : List Nat) :
    parseFuel lib (fuel + 1) (q :: body) =
      match strLoop (q :: body) q (q :: body).length 1 .Raw [] with
      | none => none
      | some (.error e) => some (.error e)
      | some (.ok (str, i)) => some (.ok (.string str, i)) := by
  rw [parseFuel]
  rcases hq with rfl | rfl <;> simp [find_first_not_of_ws]

/-- With any positive depth bound, `parse` reads a quoted text without backslash up to the
closing quote. -/
theorem parseFuel_raw_string (lib : FloatLib) (fuel q : Nat) (s t : List Nat)
    (hq : q = 34 ∨ q = 39) (hs : ∀ c ∈ s, c ≠ 92 ∧ c ≠ q) :
    parseFuel lib (fuel + 1) (q :: (s ++ q :: t)) = some (.ok (.string s, s.length + 2)) := by
  have hq92 : q ≠ 92 := by omega
  have h := strLoop_raw q hq92 s [q] t [] ([q] ++ (s ++ q :: t)).length hs (by simp; omega)
  rw [parseFuel_quote lib _ q hq]
  simp only [List.singleton_append, List.length_singleton, List.nil_append] at h
  rw [h]
  simp only [Option.some.injEq, Except.ok.injEq, Prod.mk.injEq, true_and]
  omega

/-- C5: for each quote character `q` (`"` or `'`), every text `s` that contains neither a
backslash nor `q`, and every text `t`, `parse (q + s + q + t)` returns
`(String s, length s + 2)`: the content is copied literally, only the quote that opened the
string closes it, and the closing quote is consumed. -/
theorem parse_raw_string (lib : FloatLib) (q : Nat) (s t : List Nat)
    (hq : q = 34 ∨ q = 39) (hs : ∀ c ∈ s, c ≠ 92 ∧ c ≠ q) :
    parse lib ([q] ++ s ++ [q] ++ t) = some (.ok (.string s, s.length + 2)) := by
  have hj : [q] ++ s ++ [q] ++ t = q :: (s ++ q :: t) := by simp
  rw [hj, parse]
  exact parseFuel_raw_string lib _ q s t hq hs

theorem parse_raw_string_witness :
    ((39 : Nat) = 34 ∨ (39 : Nat) = 39) ∧ (∀ c ∈ ascii "a\"b", c ≠ 92 ∧ c ≠ 39)
    ∧ parse noFloat ([39] ++ ascii "a\"b" ++ [39] ++ ascii ",1]") =
        some (.ok (.string (ascii "a\"b"), (ascii "a\"b").length + 2)) :=
  ⟨by decide, by decide,
    parse_raw_string noFloat 39 (ascii "a\"b") (ascii ",1]") (by decide) (by decide)⟩


/-! ## Hex escapes at concrete inputs -/

/-- C6 (the code departs from the claim): in `'\x365'` the escape `\x36` is followed by the
text `5`.  The claim asks for the string `65` (the byte `0x36`, then `5`); the code hands
`std::stoul` the C string that starts at the first hex digit, which reads the three digits
`365`, and returns the UTF-8 bytes of `0x365` followed by `5`.  With nothing after the two
digits, `'\x36'` is read as the claim says. -/
theorem hex1_escape_reads_further_digits (lib : FloatLib) :
    parse lib (ascii "'\\x365'") = some (.ok (.string [205, 165, 53], 7))
    ∧ utf8Encode (16 * 3 + 6) = .ok (ascii "6")
    ∧ parse lib (ascii "'\\x365'") ≠ some (.ok (.string (ascii "6" ++ ascii "5"), 1 + 6))
    ∧ parse lib (ascii "'\\x36'") = some (.ok (.string (ascii "6"), 6)) := by
  have h : parse lib (ascii "'\\x365'") = some (.ok (.string [205, 165, 53], 7)) := by rfl
  refine ⟨h, by rfl, ?_, by rfl⟩
  rw [h]
  simp [ascii]

/-- C7 (the code departs from the claim): for `'\uD83D\uDE01'` the code combines the pair
into `0x1F601` and appends its four UTF-8 bytes, but it advances the offset by 5 instead of
6, so the last hex digit of the low surrogate (`1`) is then copied as a raw character: the
string has five bytes, not the four of U+1F601. -/
theorem surrogate_pair_leaves_last_digit (lib : FloatLib) :
    parse lib (ascii "'\\uD83D\\uDE01'") = some (.ok (.string [240, 159, 152, 129, 49], 14))
    ∧ utf8Encode (((0xD83D - 0xD800) <<< 10) + (0xDE01 - 0xDC00) + 0x10000) =
        .ok [240, 159, 152, 129]
    ∧ parse lib (ascii "'\\uD83D\\uDE01'") ≠ some (.ok (.string [240, 159, 152, 129], 14)) := by
  have h : parse lib (ascii "'\\uD83D\\uDE01'") =
      some (.ok (.string [240, 159, 152, 129, 49], 14)) := by rfl
  refine ⟨h, by rfl, ?_⟩
  rw [h]
  simp


/-! ## `try_emplace` as a finite map -/

theorem lookup_cons_same (k : List Nat) (v : Value) (res : List (List Nat × Value)) :
    List.lookup k ((k, v) :: res) = some v := by
  have hb : (k == k) = true := beq_self_eq_true k
  rw [List.lookup]
  simp only [hb]

theorem lookup_cons_other {k k' : List Nat} (h : k ≠ k') (v : Value)
    (res : List (List Nat × Value)) :
    List.lookup k ((k', v) :: res) = List.lookup k res := by
  have hb : (k == k') = false := beq_false_of_ne h
  rw [List.lookup]
  simp only [hb]

theorem any_key_eq_lookup_isSome (key : List Nat) :
    ∀ res : List (List Nat × Value),
      res.any (fun kv => kv.1 == key) = (res.lookup key).isSome
  | [] => rfl
  | (k, v) :: res => by
    by_cases h : key = k
    · subst h; rw [lookup_cons_same]; simp
    · have h' : (k == key) = false := beq_false_of_ne (fun e => h e.symm)
      rw [lookup_cons_other h, List.any_cons, any_key_eq_lookup_isSome key res]
      simp only [h', Bool.false_or]

theorem lookup_append_single (k key : List Nat) (v : Value) :
    ∀ res : List (List Nat × Value),
      (res ++ [(key, v)]).lookup k =
        match res.lookup k with
        | some x => some x
        | none => if k = key then some v else none
  | [] => by
    by_cases h : k = key
    · subst h; rw [List.nil_append, lookup_cons_same]; simp [List.lookup]
    · rw [List.nil_append, lookup_cons_other h]; simp [List.lookup, h]
  | (k', v') :: res => by
    by_cases h : k = k'
    · subst h; rw [List.cons_append, lookup_cons_same, lookup_cons_same]
    · rw [List.cons_append, lookup_cons_other h, lookup_cons_other h,
        lookup_append_single k key v res]

/-- Looking a key up after `try_emplace`: an entry that was there stays, a new key is added,
an existing key keeps its first value. -/
theorem lookup_try_emplace (res : List (List Nat × Value)) (key k : List Nat) (v : Value) :
    (try_emplace res key v).lookup k =
      match res.lookup k with
      | some x => some x
      | none => if k = key then some v else none := by
  unfold try_emplace
  rw [any_key_eq_lookup_isSome]
  cases hk : res.lookup key with
  | none =>
    simp only [Option.isSome_none, Bool.false_eq_true, if_false]
    exact lookup_append_single k key v res
  | some x =>
    simp only [Option.isSome_some, if_true]
    cases hk' : res.lookup k with
    | some y => rfl
    | none =>
      have : k ≠ key := fun e => by rw [e, hk] at hk'; cases hk'
      simp [this]

theorem keys_try_emplace_nodup (res : List (List Nat × Value)) (key : List Nat) (v : Value)
    (h : (res.map Prod.fst).Nodup) : ((try_emplace res key v).map Prod.fst).Nodup := by
  unfold try_emplace
  by_cases hany : res.any (fun kv => kv.1 == key) = true
  · simp only [hany, if_true]; exact h
  · simp only [hany, Bool.false_eq_true, if_false, List.map_append, List.map_cons, List.map_nil]
    rw [List.nodup_append]
    refine ⟨h, List.nodup_singleton _, ?_⟩
    intro a ha hb
    simp only [List.mem_singleton] at hb
    subst hb
    apply hany
    obtain ⟨kv, hkv, rfl⟩ := List.mem_map.mp ha
    exact List.any_eq_true.mpr ⟨kv, hkv, by simp⟩

/-- Inserting the pairs of a list in order with `try_emplace` keeps, for every key, what was
there before, and otherwise the first pair of the list with that key. -/
theorem lookup_foldl_try_emplace (k : List Nat) :
    ∀ (ps : List (List Nat × Int)) (res : List (List Nat × Value)),
      (ps.foldl (fun acc kv => try_emplace acc kv.1 (.int kv.2)) res).lookup k =
        match res.lookup k with
        | some x => some x
        | none => (ps.lookup k).map Value.int
  | [], res => by rw [List.foldl_nil]; cases res.lookup k <;> rfl
  | (key, n) :: ps, res => by
    rw [List.foldl_cons, lookup_foldl_try_emplace k ps, lookup_try_emplace]
    cases res.lookup k with
    | some x => rfl
    | none =>
      by_cases h : k = key
      · subst h
        simp [List.lookup]
      · have hb : (k == key) = false := beq_false_of_ne h
        simp [List.lookup, h, hb]

theorem keys_foldl_try_emplace_nodup :
    ∀ (ps : List (List Nat × Int)) (res : List (List Nat × Value)),
      (res.map Prod.fst).Nodup →
      ((ps.foldl (fun acc kv => try_emplace acc kv.1 (.int kv.2)) res).map Prod.fst).Nodup
  | [], _, h => h
  | (key, n) :: ps, res, h => by
    rw [List.foldl_cons]
    exact keys_foldl_try_emplace_nodup ps _ (keys_try_emplace_nodup res key (.int n) h)


/-! ## One iteration of the object loop -/

theorem skipChar_at_length (pre rest : List Nat) (c : Nat) (hc : c ≠ 0) :
    skipChar (pre ++ rest) c pre.length =
      if rest.head? = some c then pre.length + 1 else pre.length := by
  unfold skipChar
  rw [getD_at_length]
  cases rest with
  | nil => simp [Ne.symm hc]
  | cons r rs => simp

/-- A `}` at the offset ends the loop and is consumed. -/
theorem objLoop_close (sub : List Nat → Outcome) (pre rest : List Nat) (fuel : Nat)
    (res : List (List Nat × Value)) :
    objLoop sub (pre ++ 125 :: rest) (fuel + 1) pre.length res =
      some (.ok (.object res, pre.length + 1)) := by
  have h := getD_at_length pre (125 :: rest)
  simp only [List.headD_cons] at h
  have hlt : pre.length < (pre ++ 125 :: rest).length := by simp
  rw [objLoop, if_pos hlt, h, if_pos rfl]

/-- An entry whose key and value the sub-parses read in full, with a `:` between them, is
inserted with `try_emplace`; one `,` after it is skipped. -/
theorem objLoop_entry (sub : List Nat → Outcome) (pre kt vt rest : List Nat) (fuel : Nat)
    (res : List (List Nat × Value)) (key : List Nat) (v : Value)
    (hkt : kt ≠ []) (hhead : kt.head? ≠ some 125) (hvt : vt ≠ [])
    (hsubk : sub (kt ++ 58 :: (vt ++ rest)) = some (.ok (.string key, kt.length)))
    (hsubv : sub (vt ++ rest) = some (.ok (v, vt.length))) :
    objLoop sub (pre ++ (kt ++ 58 :: (vt ++ rest))) (fuel + 1) pre.length res =
      objLoop sub (pre ++ (kt ++ 58 :: (vt ++ rest))) fuel
        (if rest.head? = some 44 then pre.length + kt.length + 1 + vt.length + 1
         else pre.length + kt.length + 1 + vt.length)
        (try_emplace res key v) := by
  generalize hj : pre ++ (kt ++ 58 :: (vt ++ rest)) = json
  have hlenk : 0 < kt.length := List.length_pos.mpr hkt
  have hlenv : 0 < vt.length := List.length_pos.mpr hvt
  have hlen : json.length = pre.length + (kt.length + (1 + (vt.length + rest.length))) := by
    rw [← hj]; simp; omega
  have hlt : pre.length < json.length := by omega
  have h1 : json.getD pre.length 0 ≠ 125 := by
    rw [← hj, getD_at_length]
    obtain ⟨e, es, rfl⟩ := List.exists_cons_of_ne_nil hkt
    simpa using hhead
  have hdrop : json.drop pre.length = kt ++ 58 :: (vt ++ rest) := by
    rw [← hj]; simp
  have hj2 : json = (pre ++ kt) ++ (58 :: (vt ++ rest)) := by rw [← hj]; simp
  have hskip1 : skipChar json 58 (pre.length + kt.length) = pre.length + kt.length + 1 := by
    have := skipChar_at_length (pre ++ kt) (58 :: (vt ++ rest)) 58 (by decide)
    rw [← hj2, List.length_append] at this
    rw [this]; simp
  have hdrop2 : json.drop (pre.length + kt.length + 1) = vt ++ rest := by
    have : pre.length + kt.length + 1 = (pre ++ kt ++ [58]).length := by simp [Nat.add_assoc]
    rw [this, hj2]
    have : (pre ++ kt) ++ (58 :: (vt ++ rest)) = (pre ++ kt ++ [58]) ++ (vt ++ rest) := by simp
    rw [this, List.drop_left]
  have hskip2 : skipChar json 44 (pre.length + kt.length + 1 + vt.length) =
      if rest.head? = some 44 then pre.length + kt.length + 1 + vt.length + 1
      else pre.length + kt.length + 1 + vt.length := by
    have := skipChar_at_length (pre ++ kt ++ [58] ++ vt) rest 44 (by decide)
    have hj3 : pre ++ kt ++ [58] ++ vt ++ rest = json := by rw [← hj]; simp
    have hl3 : (pre ++ kt ++ [58] ++ vt).length = pre.length + kt.length + 1 + vt.length := by
      simp only [List.length_append, List.length_singleton]
    rw [hj3, hl3] at this
    exact this
  rw [objLoop, if_pos hlt, if_neg h1, hdrop, hsubk]
  simp only []
  rw [if_neg (by omega), if_neg (by omega), hskip1, hdrop2, hsubv]
  simp only []
  rw [if_neg (by omega), if_neg (by omega), hskip2]


/-! ## Objects with integer values -/

/-- The object branch of `parse`: a view that starts with an opening brace is handed to the
object loop at offset 1. -/
theorem parseFuel_brace (lib : FloatLib) (fuel : Nat) (body : List Nat) :
    parseFuel lib (fuel + 1) (123 :: body) =
      objLoop (parseFuel lib fuel) (123 :: body) (123 :: body).length 1 [] := by
  rw [parseFuel]
  simp [find_first_not_of_ws]

theorem entryText_eq (k : List Nat) (n : Int) :
    entryText (k, n) = (34 :: (k ++ [34])) ++ 58 :: to_string n := by
  have h1 : ascii "\"" = [34] := rfl
  have h2 : ascii "\":" = [34, 58] := rfl
  rw [entryText, h1, h2]
  simp

/-- The sub-parses of one entry `"key":n` followed by `rest`. -/
theorem entry_subparses (lib : FloatLib) (f : Nat) (k : List Nat) (n : Int) (rest : List Nat)
    (hk : ∀ c ∈ k, c ≠ 92 ∧ c ≠ 34) (hn : -2147483648 ≤ n ∧ n ≤ 2147483647)
    (hstop : ∀ c ∈ rest.head?, isDigit c = false ∧ c ≠ 46 ∧ c ≠ 101 ∧ c ≠ 69) :
    parseFuel lib (f + 1) ((34 :: (k ++ [34])) ++ 58 :: (to_string n ++ rest)) =
        some (.ok (.string k, (34 :: (k ++ [34])).length))
    ∧ parseFuel lib (f + 1) (to_string n ++ rest) = some (.ok (.int n, (to_string n).length)) := by
  refine ⟨?_, parseFuel_to_string lib f n hn rest hstop⟩
  have h := parseFuel_raw_string lib f 34 k (58 :: (to_string n ++ rest)) (Or.inl rfl) hk
  have hj : (34 :: (k ++ [34])) ++ 58 :: (to_string n ++ rest) =
      34 :: (k ++ 34 :: 58 :: (to_string n ++ rest)) := by simp
  rw [hj, h]
  simp

/-- The object loop over entries `"key":n` joined by `,` and closed by a brace, started at
the first of them: it inserts each entry with `try_emplace` and stops behind the brace. -/
theorem objLoop_pairs (lib : FloatLib) (f : Nat) :
    ∀ (ps : List (List Nat × Int)) (p : List Nat × Int) (pre : List Nat)
      (res : List (List Nat × Value)) (fuel : Nat),
      (∀ kv ∈ p :: ps, (∀ c ∈ kv.1, c ≠ 92 ∧ c ≠ 34) ∧
        -2147483648 ≤ kv.2 ∧ kv.2 ≤ 2147483647) →
      (pre ++ ([44].intercalate ((p :: ps).map entryText) ++ [125])).length ≤
        pre.length + fuel →
      objLoop (parseFuel lib (f + 1))
          (pre ++ ([44].intercalate ((p :: ps).map
            entryText) ++ [125]))
          fuel pre.length res =
        some (.ok (.object ((p :: ps).foldl (fun acc kv => try_emplace acc kv.1 (.int kv.2)) res),
          (pre ++ ([44].intercalate ((p :: ps).map
            entryText) ++ [125])).length))
  | [], (k, n), pre, res, fuel, hr, hf => by
    obtain ⟨hk, hn⟩ := hr (k, n) (by simp)
    obtain ⟨c, tl, hs, _⟩ := to_string_head n
    have hvt : to_string n ≠ [] := by rw [hs]; simp
    obtain ⟨hsubk, hsubv⟩ := entry_subparses lib f k n [125] hk hn (by simp [isDigit])
    have e : [44].intercalate ([(k, n)].map entryText) ++ [125] =
        (34 :: (k ++ [34])) ++ 58 :: (to_string n ++ [125]) := by
      rw [List.map_cons, List.map_nil, intercalate_one, entryText_eq]
      simp
    rw [e] at hf ⊢
    have hlen : 0 < (to_string n).length := List.length_pos.mpr hvt
    obtain ⟨fuel1, rfl⟩ : ∃ j, fuel = j + 1 := ⟨fuel - 1, by
      simp only [List.length_append, List.length_cons] at hf; omega⟩
    obtain ⟨fuel2, rfl⟩ : ∃ j, fuel1 = j + 1 := ⟨fuel1 - 1, by
      simp only [List.length_append, List.length_cons] at hf; omega⟩
    rw [objLoop_entry _ pre (34 :: (k ++ [34])) (to_string n) [125] _ res k (.int n)
      (by simp) (by simp) hvt hsubk hsubv]
    simp only [List.head?_cons, Option.some.injEq, Nat.reduceEqDiff, if_false]
    have hc := objLoop_close (parseFuel lib (f + 1))
      (pre ++ ((34 :: (k ++ [34])) ++ 58 :: to_string n)) [] fuel2 (try_emplace res k (.int n))
    have hj : pre ++ ((34 :: (k ++ [34])) ++ 58 :: to_string n) ++ [125] =
        pre ++ ((34 :: (k ++ [34])) ++ 58 :: (to_string n ++ [125])) := by simp
    have hidx : (pre ++ ((34 :: (k ++ [34])) ++ 58 :: to_string n)).length =
        pre.length + (34 :: (k ++ [34])).length + 1 + (to_string n).length := by
      simp only [List.length_append, List.length_cons]; omega
    rw [hj, hidx] at hc
    rw [hc]
    simp only [List.foldl_cons, List.foldl_nil, List.length_append, List.length_cons,
      List.length_nil, Option.some.injEq, Except.ok.injEq, Prod.mk.injEq, true_and]
    omega
  | q :: ps, (k, n), pre, res, fuel, hr, hf => by
    obtain ⟨hk, hn⟩ := hr (k, n) (by simp)
    obtain ⟨c, tl, hs, _⟩ := to_string_head n
    have hvt : to_string n ≠ [] := by rw [hs]; simp
    have e : [44].intercalate (((k, n) :: q :: ps).map
        entryText) ++ [125] =
        (34 :: (k ++ [34])) ++ 58 :: (to_string n ++ 44 :: ([44].intercalate ((q :: ps).map
          entryText) ++ [125])) := by
      rw [List.map_cons, List.map_cons, intercalate_two, ← List.map_cons, entryText_eq]
      simp
    have ih := fun fuel1 => objLoop_pairs lib f ps q
      (pre ++ ((34 :: (k ++ [34])) ++ 58 :: (to_string n ++ [44])))
      (try_emplace res k (.int n)) fuel1 (fun kv hkv => hr kv (List.mem_cons_of_mem _ hkv))
    rw [e] at hf ⊢
    rw [List.foldl_cons]
    generalize [44].intercalate ((q :: ps).map
      entryText) ++ [125] = T at *
    obtain ⟨hsubk, hsubv⟩ := entry_subparses lib f k n (44 :: T) hk hn (by simp [isDigit])
    have hj : pre ++ ((34 :: (k ++ [34])) ++ 58 :: (to_string n ++ [44])) ++ T =
        pre ++ ((34 :: (k ++ [34])) ++ 58 :: (to_string n ++ 44 :: T)) := by simp
    have hidx : (pre ++ ((34 :: (k ++ [34])) ++ 58 :: (to_string n ++ [44]))).length =
        pre.length + (34 :: (k ++ [34])).length + 1 + (to_string n).length + 1 := by
      simp only [List.length_append, List.length_cons, List.length_nil]; omega
    rw [hj, hidx] at ih
    obtain ⟨fuel1, rfl⟩ : ∃ j, fuel = j + 1 := ⟨fuel - 1, by
      simp only [List.length_append, List.length_cons] at hf; omega⟩
    rw [objLoop_entry _ pre (34 :: (k ++ [34])) (to_string n) (44 :: T) _ res k (.int n)
      (by simp) (by simp) hvt hsubk hsubv]
    simp only [List.head?_cons, if_true]
    apply ih
    simp only [List.length_append, List.length_cons] at hf ⊢
    omega


theorem mem_keys_iff_lookup {β : Type} (k : List Nat) :
    ∀ l : List (List Nat × β), k ∈ l.map Prod.fst ↔ (l.lookup k).isSome = true
  | [] => by simp [List.lookup]
  | (k', v) :: l => by
    by_cases h : k = k'
    · subst h
      have hb : (k == k) = true := beq_self_eq_true k
      rw [List.lookup]
      simp [hb]
    · have hb : (k == k') = false := beq_false_of_ne h
      rw [List.lookup]
      simp only [hb, List.map_cons, List.mem_cons, h, false_or]
      exact mem_keys_iff_lookup k l

/-- C8: object parsing keeps the first occurrence of a key.  For every finite list of pairs
`(k1,n1)..(km,nm)`, each `ki` a text without backslash or double quote and each `ni` a
signed 32-bit integer, `parse` of the opening brace + the entries `"ki":ni` joined by `,` +
the closing brace returns an object with `consumed` equal to the length of the whole text;
the keys of the object are pairwise distinct, they are exactly the `ki`, and each key is
mapped to the `Int` of its first occurrence in the list.  In particular `{"a":1,"b":2}` gives
the two entries `a ↦ 1`, `b ↦ 2`. -/
theorem parse_object_first_wins (lib : FloatLib) (ps : List (List Nat × Int))
    (h : ∀ kv ∈ ps, (∀ c ∈ kv.1, c ≠ 92 ∧ c ≠ 34) ∧ -2147483648 ≤ kv.2 ∧ kv.2 ≤ 2147483647) :
    (∃ kvs : List (List Nat × Value),
      parse lib (ascii "\x7b" ++ (ascii ",").intercalate (ps.map entryText) ++ ascii "\x7d") =
        some (.ok (.object kvs,
          (ascii "\x7b" ++ (ascii ",").intercalate (ps.map entryText) ++ ascii "\x7d").length))
      ∧ (kvs.map Prod.fst).Nodup
      ∧ (∀ k, k ∈ kvs.map Prod.fst ↔ k ∈ ps.map Prod.fst)
      ∧ ∀ k, kvs.lookup k = (ps.lookup k).map Value.int)
    ∧ parse lib (ascii "\x7b\"a\":1,\"b\":2\x7d") =
        some (.ok (.object [(ascii "a", .int 1), (ascii "b", .int 2)], 13)) := by
  refine ⟨⟨ps.foldl (fun acc kv => try_emplace acc kv.1 (.int kv.2)) [], ?_, ?_, ?_, ?_⟩, by rfl⟩
  · cases ps with
    | nil => rfl
    | cons p ps =>
      have hl := objLoop_pairs lib ([44].intercalate ((p :: ps).map entryText) ++ [125]).length
        ps p [123] [] ([123] ++ ([44].intercalate ((p :: ps).map entryText) ++ [125])).length
        h (by simp)
      have ht : ascii "\x7b" ++ (ascii ",").intercalate ((p :: ps).map entryText) ++ ascii "\x7d" =
          123 :: ([44].intercalate ((p :: ps).map entryText) ++ [125]) := rfl
      rw [ht, parse, parseFuel_brace, List.length_cons]
      simpa using hl
  · exact keys_foldl_try_emplace_nodup ps [] List.nodup_nil
  · intro k
    rw [mem_keys_iff_lookup, mem_keys_iff_lookup, lookup_foldl_try_emplace]
    simp [List.lookup]
  · intro k
    rw [lookup_foldl_try_emplace]
    simp [List.lookup]

theorem parse_object_first_wins_witness :
    (∀ kv ∈ [(ascii "a", (1 : Int)), (ascii "b", 2), (ascii "a", 3)],
      (∀ c ∈ kv.1, c ≠ 92 ∧ c ≠ 34) ∧ -2147483648 ≤ kv.2 ∧ kv.2 ≤ 2147483647)
    ∧ (∃ kvs : List (List Nat × Value),
      parse noFloat (ascii "\x7b" ++ (ascii ",").intercalate
          ([(ascii "a", (1 : Int)), (ascii "b", 2), (ascii "a", 3)].map entryText)
          ++ ascii "\x7d") =
        some (.ok (.object kvs,
          (ascii "\x7b" ++ (ascii ",").intercalate
            ([(ascii "a", (1 : Int)), (ascii "b", 2), (ascii "a", 3)].map entryText)
            ++ ascii "\x7d").length))
      ∧ (kvs.map Prod.fst).Nodup
      ∧ (∀ k, k ∈ kvs.map Prod.fst ↔
          k ∈ [(ascii "a", (1 : Int)), (ascii "b", 2), (ascii "a", 3)].map Prod.fst)
      ∧ ∀ k, kvs.lookup k =
          ([(ascii "a", (1 : Int)), (ascii "b", 2), (ascii "a", 3)].lookup k).map Value.int)
    ∧ parse noFloat (ascii "\x7b\"a\":1,\"b\":2\x7d") =
        some (.ok (.object [(ascii "a", .int 1), (ascii "b", .int 2)], 13)) :=
  ⟨by decide,
    parse_object_first_wins noFloat [(ascii "a", 1), (ascii "b", 2), (ascii "a", 3)]
      (by decide)⟩


/-! ## Leading white space -/

theorem find_first_not_of_ws_append (w s : List Nat)
    (hw : ∀ c ∈ w, c = 32 ∨ c = 10 ∨ c = 13 ∨ c = 9 ∨ c = 11 ∨ c = 12)
    (hs : ∀ c ∈ s.head?, ¬ (c = 32 ∨ c = 10 ∨ c = 13 ∨ c = 9 ∨ c = 11 ∨ c = 12))
    (hne : s ≠ []) :
    find_first_not_of_ws (w ++ s) = some w.length := by
  induction w with
  | nil =>
    obtain ⟨c, tl, rfl⟩ := List.exists_cons_of_ne_nil hne
    have := hs c (by simp)
    simp only [not_or] at this
    simp [find_first_not_of_ws, this]
  | cons a w ih =>
    have ha := hw a (by simp)
    have := ih (fun c hc => hw c (List.mem_cons_of_mem _ hc))
    rw [List.cons_append, find_first_not_of_ws, this]
    have hcond : (a == 32 || a == 10 || a == 13 || a == 9 || a == 11 || a == 12) = true := by
      rcases ha with h | h | h | h | h | h <;> simp [h]
    simp [hcond]

/-- White space in front of a text that starts with another character is skipped: the
value is the one `parse` gives for the text, and the skipped length is added to `eaten`.
Here white space is space, `\n`, `\r`, `\t`, `\v`, `\f`. -/
theorem parse_skip_ws (lib : FloatLib) (w s : List Nat) (hwne : w ≠ [])
    (hw : ∀ c ∈ w, c = 32 ∨ c = 10 ∨ c = 13 ∨ c = 9 ∨ c = 11 ∨ c = 12)
    (hs : ∀ c ∈ s.head?, ¬ (c = 32 ∨ c = 10 ∨ c = 13 ∨ c = 9 ∨ c = 11 ∨ c = 12))
    (hne : s ≠ []) :
    parse lib (w ++ s) =
      match parse lib s with
      | none => none
      | some (.error e) => some (.error e)
      | some (.ok (obj, eaten)) => some (.ok (obj, eaten + w.length)) := by
  have hoff := find_first_not_of_ws_append w s hw hs hne
  have hlen : 0 < w.length := List.length_pos.mpr hwne
  have hsub : parseFuel lib (w ++ s).length ((w ++ s).drop w.length) = parse lib s := by
    rw [List.drop_left]
    exact parseFuel_eq_parse lib s _ (by simp; omega)
  obtain ⟨a, w', rfl⟩ := List.exists_cons_of_ne_nil hwne
  have hcond : (find_first_not_of_ws (a :: w' ++ s)).isSome ∧
      find_first_not_of_ws (a :: w' ++ s) ≠ some 0 := by
    rw [hoff]; simp
  rw [parse, parseFuel]
  simp only [List.cons_append, List.isEmpty_cons, Bool.false_eq_true, if_false] at hcond ⊢
  rw [if_pos hcond]
  simp only [List.cons_append] at hoff hsub
  rw [hoff, Option.getD_some, hsub]

/-- C9 (the code departs from the claim): NUL is not skipped.  The set handed to
`find_first_not_of` is a C string, which ends at its `\0`, so a view that starts with NUL
matches no branch: `parse` of NUL followed by `1` is `(Null, 0)`, where the claim asks for
`(Int 1, 2)`, one more than `parse("1") = (Int 1, 1)`.  A space in the same place is
skipped. -/
theorem nul_is_not_skipped (lib : FloatLib) :
    parse lib ([0] ++ ascii "1") = some (.ok (.null, 0))
    ∧ parse lib (ascii "1") = some (.ok (.int 1, 1))
    ∧ parse lib ([0] ++ ascii "1") ≠ some (.ok (.int 1, 1 + [0].length))
    ∧ parse lib (ascii " " ++ ascii "1") = some (.ok (.int 1, 1 + (ascii " ").length)) := by
  have h : parse lib ([0] ++ ascii "1") = some (.ok (.null, 0)) := by rfl
  refine ⟨h, by rfl, ?_, by rfl⟩
  rw [h]
  simp


/-! ## An array that is not closed -/

/-- The array loop over element texts joined by `,` up to the end of the view, each of them
read in full by the sub-parse at its offset: every element is appended and the loop ends at
the end of the view. -/
theorem arrLoop_open (lib : FloatLib) (F : Nat) :
    ∀ (post : List (List Nat × Value)) (e : List Nat × Value) (pre : List Nat)
      (res : List Value) (fuel : Nat),
      1 ≤ pre.length →
      (pre ++ [44].intercalate ((e :: post).map Prod.fst)).length ≤ F →
      (∀ pre' e' post', e :: post = pre' ++ e' :: post' →
        e'.1 ≠ [] ∧ e'.1.head? ≠ some 93 ∧
        parse lib ([44].intercalate ((e' :: post').map Prod.fst)) =
          some (.ok (e'.2, e'.1.length))) →
      (pre ++ [44].intercalate ((e :: post).map Prod.fst)).length ≤ pre.length + fuel →
      arrLoop (parseFuel lib F) (pre ++ [44].intercalate ((e :: post).map Prod.fst))
          fuel pre.length res =
        some (.ok (.array (res ++ (e :: post).map Prod.snd),
          (pre ++ [44].intercalate ((e :: post).map Prod.fst)).length))
  | [], e, pre, res, fuel, hpre, hF, hv, hf => by
    obtain ⟨hne, hhead, hp⟩ := hv [] e [] rfl
    simp only [List.map_cons, List.map_nil, intercalate_one] at hF hf hp ⊢
    have hlen : 0 < e.1.length := List.length_pos.mpr hne
    have hsub : parseFuel lib F (e.1 ++ []) = some (.ok (e.2, e.1.length)) := by
      rw [List.append_nil, parseFuel_eq_parse lib e.1 F
        (by simp only [List.length_append] at hF; omega)]
      exact hp
    obtain ⟨fuel1, rfl⟩ : ∃ j, fuel = j + 1 := ⟨fuel - 1, by
      simp only [List.length_append] at hf; omega⟩
    have hstep := arrLoop_elem (parseFuel lib F) pre e.1 [] fuel1 res e.2 hne hhead hsub
    simp only [List.append_nil, List.head?_nil, if_false] at hstep
    rw [hstep, arrLoop_at_end _ _ _ _ _ (by simp)]
    simp
  | e2 :: post, e, pre, res, fuel, hpre, hF, hv, hf => by
    obtain ⟨hne, hhead, hp⟩ := hv [] e (e2 :: post) rfl
    have hlen : 0 < e.1.length := List.length_pos.mpr hne
    have e1 : [44].intercalate ((e :: e2 :: post).map Prod.fst) =
        e.1 ++ (44 :: [44].intercalate ((e2 :: post).map Prod.fst)) := by
      rw [List.map_cons, List.map_cons, intercalate_two, ← List.map_cons]
      rfl
    have ih := fun fuel1 h1 h2 h3 => arrLoop_open lib F post e2 (pre ++ (e.1 ++ [44]))
      (res ++ [e.2]) fuel1 h1 h2
      (fun pre' e' post' hsplit => hv (e :: pre') e' post' (by rw [hsplit]; rfl)) h3
    have hres : res ++ [e.2] ++ (e2 :: post).map Prod.snd =
        res ++ (e :: e2 :: post).map Prod.snd := by simp
    rw [e1] at hF hf hp ⊢
    rw [hres] at ih
    generalize [44].intercalate ((e2 :: post).map Prod.fst) = T at *
    have hj : (pre ++ (e.1 ++ [44])) ++ T = pre ++ (e.1 ++ 44 :: T) := by simp
    have hidx : (pre ++ (e.1 ++ [44])).length = pre.length + e.1.length + 1 := by
      simp [Nat.add_assoc]
    rw [hj, hidx] at ih
    have hsub : parseFuel lib F (e.1 ++ 44 :: T) = some (.ok (e.2, e.1.length)) := by
      rw [parseFuel_eq_parse lib _ F
        (by simp only [List.length_append, List.length_cons] at hF ⊢; omega)]
      exact hp
    obtain ⟨fuel1, rfl⟩ : ∃ j, fuel = j + 1 := ⟨fuel - 1, by
      simp only [List.length_append, List.length_cons] at hf; omega⟩
    rw [arrLoop_elem _ pre e.1 (44 :: T) _ res e.2 hne hhead hsub]
    simp only [List.head?_cons, if_true]
    apply ih
    · omega
    · exact hF
    · simp only [List.length_append, List.length_cons] at hf ⊢
      omega

/-- C10 as stated fails: `parse("[1,2")` returns the array of both elements with
`consumed = 4`, not `consumed = 0`. -/
theorem unterminated_array_counterexample :
    parse noFloat (ascii "[1,2") = some (.ok (.array [.int 1, .int 2], 4))
    ∧ ¬ ∃ v, parse noFloat (ascii "[1,2") = some (.ok (v, 0)) := by
  have h : parse noFloat (ascii "[1,2") = some (.ok (.array [.int 1, .int 2], 4)) := by rfl
  refine ⟨h, ?_⟩
  rw [h]
  simp

/-- C10, amended: an unterminated array is returned in full.  For every input that is `[`
followed by one or more elements separated by `,` and then ends, where each element is a
non-empty text that does not start with `]` and that the sub-parse at its offset reads in
full, `parse` returns the array of all the elements, and `consumed` is the length of the
input (the loop ends at the end of the view); it does not report `consumed = 0`. -/
theorem parse_unterminated_array (lib : FloatLib) (es : List (List Nat × Value))
    (hne : es ≠ [])
    (hv : ∀ pre e post, es = pre ++ e :: post →
      e.1 ≠ [] ∧ e.1.head? ≠ some 93 ∧
      parse lib ((ascii ",").intercalate ((e :: post).map Prod.fst)) =
        some (.ok (e.2, e.1.length))) :
    parse lib (ascii "[" ++ (ascii ",").intercalate (es.map Prod.fst)) =
        some (.ok (.array (es.map Prod.snd),
          (ascii "[" ++ (ascii ",").intercalate (es.map Prod.fst)).length))
    ∧ (ascii "[" ++ (ascii ",").intercalate (es.map Prod.fst)).length ≠ 0 := by
  obtain ⟨e, post, rfl⟩ := List.exists_cons_of_ne_nil hne
  have ht : ascii "[" ++ (ascii ",").intercalate ((e :: post).map Prod.fst) =
      [91] ++ [44].intercalate ((e :: post).map Prod.fst) := rfl
  have hl := arrLoop_open lib ([91] ++ [44].intercalate ((e :: post).map Prod.fst)).length
    post e [91] [] ([91] ++ [44].intercalate ((e :: post).map Prod.fst)).length
    (by simp) (Nat.le_refl _) hv (by simp)
  refine ⟨?_, by rw [ht]; simp⟩
  rw [ht, parse]
  simp only [List.singleton_append] at hl ⊢
  rw [parseFuel_bracket]
  simpa using hl

theorem parse_unterminated_array_witness :
    [(ascii "1", Value.int 1), (ascii "2", Value.int 2)] ≠ []
    ∧ (∀ pre e post, [(ascii "1", Value.int 1), (ascii "2", Value.int 2)] = pre ++ e :: post →
      e.1 ≠ [] ∧ e.1.head? ≠ some 93 ∧
      parse noFloat ((ascii ",").intercalate ((e :: post).map Prod.fst)) =
        some (.ok (e.2, e.1.length)))
    ∧ parse noFloat (ascii "[" ++ (ascii ",").intercalate
          ([(ascii "1", Value.int 1), (ascii "2", Value.int 2)].map Prod.fst)) =
        some (.ok (.array ([(ascii "1", Value.int 1), (ascii "2", Value.int 2)].map Prod.snd),
          (ascii "[" ++ (ascii ",").intercalate
            ([(ascii "1", Value.int 1), (ascii "2", Value.int 2)].map Prod.fst)).length))
    ∧ (ascii "[" ++ (ascii ",").intercalate
          ([(ascii "1", Value.int 1), (ascii "2", Value.int 2)].map Prod.fst)).length ≠ 0 :=
  have hv : ∀ pre e post,
      [(ascii "1", Value.int 1), (ascii "2", Value.int 2)] = pre ++ e :: post →
      e.1 ≠ [] ∧ e.1.head? ≠ some 93 ∧
      parse noFloat ((ascii ",").intercalate ((e :: post).map Prod.fst)) =
        some (.ok (e.2, e.1.length)) := by
    intro pre e post h
    rcases pre with _ | ⟨a, _ | ⟨b, pre⟩⟩
    · simp only [List.nil_append, List.cons.injEq] at h
      obtain ⟨rfl, rfl⟩ := h
      exact ⟨by decide, by decide, by rfl⟩
    · simp only [List.cons_append, List.nil_append, List.cons.injEq] at h
      obtain ⟨-, rfl, rfl⟩ := h
      exact ⟨by decide, by decide, by rfl⟩
    · simp at h
  ⟨by simp, hv, parse_unterminated_array noFloat _ (by simp) hv⟩


/-! ## Single-character escapes -/

/-- C17: single-character escapes.  For every quote `q` and every character `c` other than
`x`, `u` and `U`, `parse (q + "\" + c + q)` returns `(String [e c], 4)`, where `e` is
`unescaped_char`: `n` ↦ LF, `r` ↦ CR, `0` ↦ NUL, `t` ↦ TAB, `v` ↦ VT, `f` ↦ FF, `b` ↦ BS,
`a` ↦ BEL, and every other character is mapped to itself; in particular an escaped quote `q`
and an escaped backslash are stored as themselves and neither ends the string nor starts
another escape. -/
theorem parse_single_escape (lib : FloatLib) (q c : Nat) (hq : q = 34 ∨ q = 39)
    (hc : c ≠ 120 ∧ c ≠ 117 ∧ c ≠ 85) :
    parse lib ([q] ++ ascii "\\" ++ [c] ++ [q]) = some (.ok (.string [unescaped_char c], 4))
    ∧ (unescaped_char 110 = 10 ∧ unescaped_char 114 = 13 ∧ unescaped_char 48 = 0
        ∧ unescaped_char 116 = 9 ∧ unescaped_char 118 = 11 ∧ unescaped_char 102 = 12
        ∧ unescaped_char 98 = 8 ∧ unescaped_char 97 = 7)
    ∧ ((c ≠ 110 ∧ c ≠ 114 ∧ c ≠ 48 ∧ c ≠ 116 ∧ c ≠ 118 ∧ c ≠ 102 ∧ c ≠ 98 ∧ c ≠ 97) →
        unescaped_char c = c)
    ∧ parse lib ([q] ++ ascii "\\" ++ [q] ++ [q]) = some (.ok (.string [q], 4))
    ∧ parse lib ([q] ++ ascii "\\" ++ ascii "\\" ++ [q]) = some (.ok (.string (ascii "\\"), 4)) := by
  have hq92 : q ≠ 92 := by omega
  have key : ∀ d : Nat, d ≠ 120 ∧ d ≠ 117 ∧ d ≠ 85 →
      parse lib ([q] ++ ascii "\\" ++ [d] ++ [q]) =
        some (.ok (.string [unescaped_char d], 4)) := by
    intro d hd
    show parse lib (q :: 92 :: d :: [q]) = _
    rw [parse, parseFuel_quote lib _ q hq]
    simp [strLoop, hq92, hd.1, hd.2.1, hd.2.2]
  refine ⟨key c hc, by decide, ?_, ?_, ?_⟩
  · intro h
    simp [unescaped_char, h]
  · have h := key q (by omega)
    have hu : unescaped_char q = q := by
      rcases hq with rfl | rfl <;> decide
    rwa [hu] at h
  · exact key 92 (by decide)

theorem parse_single_escape_witness :
    ((34 : Nat) = 34 ∨ (34 : Nat) = 39) ∧ ((110 : Nat) ≠ 120 ∧ (110 : Nat) ≠ 117 ∧ (110 : Nat) ≠ 85)
    ∧ parse noFloat ([34] ++ ascii "\\" ++ [110] ++ [34]) =
        some (.ok (.string [unescaped_char 110], 4))
    ∧ (unescaped_char 110 = 10 ∧ unescaped_char 114 = 13 ∧ unescaped_char 48 = 0
        ∧ unescaped_char 116 = 9 ∧ unescaped_char 118 = 11 ∧ unescaped_char 102 = 12
        ∧ unescaped_char 98 = 8 ∧ unescaped_char 97 = 7)
    ∧ (((110 : Nat) ≠ 110 ∧ (110 : Nat) ≠ 114 ∧ (110 : Nat) ≠ 48 ∧ (110 : Nat) ≠ 116
          ∧ (110 : Nat) ≠ 118 ∧ (110 : Nat) ≠ 102 ∧ (110 : Nat) ≠ 98 ∧ (110 : Nat) ≠ 97) →
        unescaped_char 110 = 110)
    ∧ parse noFloat ([34] ++ ascii "\\" ++ [34] ++ [34]) = some (.ok (.string [34], 4))
    ∧ parse noFloat ([34] ++ ascii "\\" ++ ascii "\\" ++ [34]) =
        some (.ok (.string (ascii "\\"), 4)) :=
  ⟨by decide, by decide, parse_single_escape noFloat 34 110 (by decide) (by decide)⟩


/-! ## Serializing arrays -/

theorem dumpElems_compact (lib : FloatLib) (d : Nat) :
    ∀ (es : List Value) (e : Value),
      dumpElems lib (e :: es) false d =
        (ascii ",").intercalate ((e :: es).map (fun x => dump lib x false (d + 1)))
  | [], e => by
    simp [dumpElems, intercalate_one]
  | e2 :: es, e => by
    have ih := dumpElems_compact lib d es e2
    have hr : (ascii ",").intercalate ((e :: e2 :: es).map (fun x => dump lib x false (d + 1))) =
        dump lib e false (d + 1) ++ (ascii "," ++
          (ascii ",").intercalate ((e2 :: es).map (fun x => dump lib x false (d + 1)))) := by
      rw [List.map_cons, List.map_cons, intercalate_two]
    rw [dumpElems, ih, hr]
    simp

theorem dumpElems_pretty (lib : FloatLib) (d : Nat) :
    ∀ (es : List Value) (e : Value),
      dumpElems lib (e :: es) true d =
        (ascii ",\n").intercalate
          ((e :: es).map (fun x => spaces (2 * (d + 1)) ++ dump lib x true (d + 1)))
          ++ ascii "\n"
  | [], e => by
    simp [dumpElems, intercalate_one, Nat.mul_comm]
  | e2 :: es, e => by
    have ih := dumpElems_pretty lib d es e2
    have hr : (ascii ",\n").intercalate
          ((e :: e2 :: es).map (fun x => spaces (2 * (d + 1)) ++ dump lib x true (d + 1))) =
        (spaces (2 * (d + 1)) ++ dump lib e true (d + 1)) ++ (ascii ",\n" ++
          (ascii ",\n").intercalate
            ((e2 :: es).map (fun x => spaces (2 * (d + 1)) ++ dump lib x true (d + 1)))) := by
      rw [List.map_cons, List.map_cons, intercalate_two]
    have h1 : ascii "," ++ ascii "\n" = ascii ",\n" := rfl
    rw [dumpElems, ih, hr, ← h1]
    simp [Nat.mul_comm]

/-- C13: array serialization.  For every depth `d`, `dump (Array [], pretty, d)` is `[]` for
both values of `pretty`; for a non-empty `es`, `dump (Array es, false, d)` is `[` + the texts
`dump (e, false, d+1)` joined by `,` + `]`, and `dump (Array es, true, d)` is `[\n` + the
texts (`2*(d+1)` space characters + `dump (e, true, d+1)`) joined by `,\n` + `\n` + `2*d`
space characters + `]`.  The space character is the byte 32; for instance the pretty text of
`[1, [null]]` at depth 1 indents the elements by four spaces, the element of the inner array
by six, and the closing brackets by four and by two. -/
theorem dump_array (lib : FloatLib) (es : List Value) (d : Nat) (hne : es ≠ []) :
    dump lib (.array []) false d = ascii "[]"
    ∧ dump lib (.array []) true d = ascii "[]"
    ∧ dump lib (.array es) false d =
        ascii "[" ++ (ascii ",").intercalate (es.map (fun e => dump lib e false (d + 1)))
          ++ ascii "]"
    ∧ dump lib (.array es) true d =
        ascii "[\n" ++ (ascii ",\n").intercalate
            (es.map (fun e => List.replicate (2 * (d + 1)) 32 ++ dump lib e true (d + 1)))
          ++ ascii "\n" ++ List.replicate (2 * d) 32 ++ ascii "]"
    ∧ ascii " " = [32]
    ∧ dump lib (.array [Value.int 1, Value.array [Value.null]]) true 1 =
        ascii "[\n    1,\n    [\n      null\n    ]\n  ]" := by
  obtain ⟨e, es, rfl⟩ := List.exists_cons_of_ne_nil hne
  refine ⟨by simp [dump], by simp [dump], ?_, ?_, rfl, by rfl⟩
  · rw [dump, dumpElems_compact]
    simp
  · rw [dump, dumpElems_pretty]
    have h1 : ascii "[" ++ ascii "\n" = ascii "[\n" := rfl
    simp [Nat.mul_comm, ← h1, spaces]

theorem dump_array_witness :
    [Value.int 1, Value.array [Value.null]] ≠ []
    ∧ dump noFloat (.array []) false 1 = ascii "[]"
    ∧ dump noFloat (.array []) true 1 = ascii "[]"
    ∧ dump noFloat (.array [Value.int 1, Value.array [Value.null]]) false 1 =
        ascii "[" ++ (ascii ",").intercalate
          ([Value.int 1, Value.array [Value.null]].map (fun e => dump noFloat e false (1 + 1)))
          ++ ascii "]"
    ∧ dump noFloat (.array [Value.int 1, Value.array [Value.null]]) true 1 =
        ascii "[\n" ++ (ascii ",\n").intercalate
            ([Value.int 1, Value.array [Value.null]].map
              (fun e => List.replicate (2 * (1 + 1)) 32 ++ dump noFloat e true (1 + 1)))
          ++ ascii "\n" ++ List.replicate (2 * 1) 32 ++ ascii "]"
    ∧ ascii " " = [32]
    ∧ dump noFloat (.array [Value.int 1, Value.array [Value.null]]) true 1 =
        ascii "[\n    1,\n    [\n      null\n    ]\n  ]" :=
  ⟨by simp, dump_array noFloat [Value.int 1, Value.array [Value.null]] 1 (by simp)⟩


/-! ## Evaluations at concrete inputs -/

/-- C12 (the code departs from the claim): the two patterns are searched, not anchored.
`tx true` starts with `t` and with none of the six words, and `-a5` starts with `-` followed
by a non-digit, so the claim asks for `(Null, 0)` on both.  `std::regex_search` finds the
word `true` at offset 3 and the digit `5` at offset 2, and the code returns the match with
its length as `consumed`: `(Bool true, 4)` and `(Int 5, 1)`.  With nothing to find further
on, `tx` and `-a` give `(Null, 0)`. -/
theorem regex_search_is_not_anchored (lib : FloatLib) :
    parse lib (ascii "tx true") = some (.ok (.bool true, 4))
    ∧ parse lib (ascii "tx true") ≠ some (.ok (.null, 0))
    ∧ parse lib (ascii "-a5") = some (.ok (.int 5, 1))
    ∧ parse lib (ascii "-a5") ≠ some (.ok (.null, 0))
    ∧ parse lib (ascii "tx") = some (.ok (.null, 0))
    ∧ parse lib (ascii "-a") = some (.ok (.null, 0)) := by
  have h1 : parse lib (ascii "tx true") = some (.ok (.bool true, 4)) := by rfl
  have h2 : parse lib (ascii "-a5") = some (.ok (.int 5, 1)) := by rfl
  refine ⟨h1, ?_, h2, ?_, by rfl, by rfl⟩
  · rw [h1]; simp
  · rw [h2]; simp

/-- C14 (the code departs from the claim): `dump` has no case for `bool`, so a `Bool` reaches
the final `else` and is written as the nine characters `"unknown"`, for both values of
`pretty` and every depth; it is not written as `true` or `false`. -/
theorem dump_bool_is_unknown (lib : FloatLib) (b isPretty : Bool) (depth : Nat) :
    dump lib (.bool b) isPretty depth = ascii "\"unknown\""
    ∧ dump lib (.bool true) isPretty depth ≠ ascii "true"
    ∧ dump lib (.bool false) isPretty depth ≠ ascii "false" := by
  have h : ∀ c : Bool, dump lib (.bool c) isPretty depth = ascii "\"unknown\"" := by
    intro c; rw [dump]
  refine ⟨h b, ?_, ?_⟩
  · rw [h]; decide
  · rw [h]; decide

/-- C19 (the code departs from the claim): a string that ends inside a hex escape reports
more characters than the input has.  On the 4 characters `'\u4` the `Hex2` phase adds 3 to
the offset without looking at the length and the loop adds 1 more: `consumed = 7`.  The
same happens with `'\x4` (`consumed = 5`) and `'\U4` (`consumed = 11`). -/
theorem consumed_exceeds_input (lib : FloatLib) :
    parse lib (ascii "'\\u4") = some (.ok (.string [4], 7))
    ∧ (ascii "'\\u4").length = 4
    ∧ ¬ (∀ v n, parse lib (ascii "'\\u4") = some (.ok (v, n)) → n ≤ (ascii "'\\u4").length)
    ∧ parse lib (ascii "'\\x4") = some (.ok (.string [4], 5))
    ∧ parse lib (ascii "'\\U4") = some (.ok (.string [4], 11)) := by
  have h : parse lib (ascii "'\\u4") = some (.ok (.string [4], 7)) := by rfl
  refine ⟨h, by rfl, ?_, by rfl, by rfl⟩
  intro hall
  have := hall _ _ h
  revert this
  decide

/-- C20 (the code departs from the claim): white space inside an empty array is not
insignificant.  In `[ ]` the loop hands ` ]` to `parse`, whose white-space branch adds the
skipped length 1 to the 0 that `parse("]")` reports, so the array loop takes `(Null, 1)` for
an element: the result is the array `[Null]` with `consumed = 3`, not the empty array that
`parse("[]")` returns. -/
theorem blank_in_empty_array_adds_null (lib : FloatLib) :
    parse lib (ascii "[ ]") = some (.ok (.array [.null], 3))
    ∧ parse lib (ascii "[ ]") ≠ some (.ok (.array [], (ascii " ").length + 2))
    ∧ parse lib (ascii " ]") = some (.ok (.null, 1))
    ∧ parse lib (ascii "]") = some (.ok (.null, 0))
    ∧ parse lib (ascii "[]") = some (.ok (.array [], 2)) := by
  have h : parse lib (ascii "[ ]") = some (.ok (.array [.null], 3)) := by rfl
  refine ⟨h, ?_, by rfl, by rfl, by rfl⟩
  rw [h]; simp


/-! ## Termination -/

/-- The `Hex2` phase leaves the offset at least 3 further on. -/
theorem hex2Step_advances {json : List Nat} {i code i2 : Nat}
    (h : hex2Step json i = .ok (code, i2)) : i + 3 ≤ i2 := by
  unfold hex2Step at h
  cases hr : readHex json i with
  | error e => rw [hr] at h; cases h
  | ok c =>
    rw [hr] at h
    simp only [] at h
    by_cases h1 : 0xD800 ≤ c ∧ c ≤ 0xDBFF
    · rw [if_pos h1] at h
      by_cases h2 : i + 3 + 6 < json.length ∧ json.getD (i + 3 + 1) 0 = 92 ∧
          json.getD (i + 3 + 2) 0 = 117
      · rw [if_pos h2] at h
        cases hl : readHex json (i + 3 + 3) with
        | error e => rw [hl] at h; cases h
        | ok low =>
          rw [hl] at h
          simp only [] at h
          by_cases h3 : 0xDC00 ≤ low ∧ low ≤ 0xDFFF
          · rw [if_pos h3] at h
            injection h with h
            injection h with _ h
            omega
          · rw [if_neg h3] at h
            injection h with h
            injection h with _ h
            omega
      · rw [if_neg h2] at h
        injection h with h
        injection h with _ h
        omega
    · rw [if_neg h1] at h
      injection h with h
      injection h with _ h
      omega

/-- Every iteration of the string loop exits or moves the offset forward, so the loop ends
within `json.length - i` iterations. -/
theorem strLoop_total (json : List Nat) (q : Nat) :
    ∀ (fuel i : Nat) (phase : Phase) (str : List Nat), json.length ≤ i + fuel →
      ∃ r, strLoop json q fuel i phase str = some r
  | 0, i, phase, str, h => by
    have : ¬ i < json.length := by omega
    rw [strLoop, if_neg this]
    exact ⟨_, rfl⟩
  | fuel + 1, i, phase, str, h => by
    rw [strLoop]
    by_cases hi : i < json.length
    · rw [if_pos hi]
      cases phase with
      | Raw =>
        simp only []
        split_ifs
        · exact strLoop_total json q fuel _ _ _ (by omega)
        · exact ⟨_, rfl⟩
        · exact strLoop_total json q fuel _ _ _ (by omega)
      | Escaped =>
        simp only []
        split_ifs <;> exact strLoop_total json q fuel _ _ _ (by omega)
      | Hex1 =>
        simp only []
        cases readHex json i with
        | error e => exact ⟨_, rfl⟩
        | ok code =>
          simp only []
          cases utf8Encode code with
          | error e => exact ⟨_, rfl⟩
          | ok bytes => exact strLoop_total json q fuel _ _ _ (by omega)
      | Hex2 =>
        simp only []
        cases hs : hex2Step json i with
        | error e => exact ⟨_, rfl⟩
        | ok p =>
          obtain ⟨code, i2⟩ := p
          have := hex2Step_advances hs
          simp only []
          cases utf8Encode code with
          | error e => exact ⟨_, rfl⟩
          | ok bytes => exact strLoop_total json q fuel _ _ _ (by omega)
      | Hex4 =>
        simp only []
        cases readHex json i with
        | error e => exact ⟨_, rfl⟩
        | ok code =>
          simp only []
          cases utf8Encode code with
          | error e => exact ⟨_, rfl⟩
          | ok bytes => exact strLoop_total json q fuel _ _ _ (by omega)
    · rw [if_neg hi]; exact ⟨_, rfl⟩

theorem le_skipChar (json : List Nat) (c i : Nat) : i ≤ skipChar json c i := by
  unfold skipChar; split_ifs <;> omega

/-- Every iteration of the array loop exits or moves the offset forward by the non-zero
`eaten` of its sub-parse. -/
theorem arrLoop_total (sub : List Nat → Outcome) (json : List Nat)
    (hsub : ∀ j, 1 ≤ j → ∃ r, sub (json.drop j) = some r) :
    ∀ (fuel i : Nat) (res : List Value), 1 ≤ i → json.length ≤ i + fuel →
      ∃ r, arrLoop sub json fuel i res = some r
  | 0, i, res, _, h => by
    have : ¬ i < json.length := by omega
    rw [arrLoop, if_neg this]
    exact ⟨_, rfl⟩
  | fuel + 1, i, res, hi1, h => by
    rw [arrLoop]
    by_cases hi : i < json.length
    · rw [if_pos hi]
      split_ifs
      · exact ⟨_, rfl⟩
      · obtain ⟨r, hr⟩ := hsub i hi1
        rw [hr]
        cases r with
        | error e => exact ⟨_, rfl⟩
        | ok p =>
          obtain ⟨obj, eaten⟩ := p
          simp only []
          by_cases h0 : eaten = 0
          · rw [if_pos h0]; exact ⟨_, rfl⟩
          · rw [if_neg h0]
            split_ifs
            · exact ⟨_, rfl⟩
            · have := le_skipChar json 44 (i + eaten)
              exact arrLoop_total sub json hsub fuel _ _ (by omega) (by omega)
    · rw [if_neg hi]; exact ⟨_, rfl⟩

/-- Every iteration of the object loop exits or moves the offset forward by the non-zero
`eaten` of its key and of its value. -/
theorem objLoop_total (sub : List Nat → Outcome) (json : List Nat)
    (hsub : ∀ j, 1 ≤ j → ∃ r, sub (json.drop j) = some r) :
    ∀ (fuel i : Nat) (res : List (List Nat × Value)), 1 ≤ i → json.length ≤ i + fuel →
      ∃ r, objLoop sub json fuel i res = some r
  | 0, i, res, _, h => by
    have : ¬ i < json.length := by omega
    rw [objLoop, if_neg this]
    exact ⟨_, rfl⟩
  | fuel + 1, i, res, hi1, h => by
    rw [objLoop]
    by_cases hi : i < json.length
    · rw [if_pos hi]
      by_cases hc : json.getD i 0 = 125
      · rw [if_pos hc]; exact ⟨_, rfl⟩
      · rw [if_neg hc]
        obtain ⟨r, hr⟩ := hsub i hi1
        rw [hr]
        cases r with
        | error e => exact ⟨_, rfl⟩
        | ok p =>
          obtain ⟨keyobj, keyeaten⟩ := p
          simp only []
          by_cases h0 : keyeaten = 0
          · rw [if_pos h0]; exact ⟨_, rfl⟩
          · rw [if_neg h0]
            cases keyobj with
            | string key =>
              simp only []
              by_cases hk : json.length < i + keyeaten
              · rw [if_pos hk]; exact ⟨_, rfl⟩
              · rw [if_neg hk]
                have hs1 := le_skipChar json 58 (i + keyeaten)
                obtain ⟨r2, hr2⟩ := hsub (skipChar json 58 (i + keyeaten)) (by omega)
                rw [hr2]
                cases r2 with
                | error e => exact ⟨_, rfl⟩
                | ok p2 =>
                  obtain ⟨valobj, valeaten⟩ := p2
                  simp only []
                  by_cases hv0 : valeaten = 0
                  · rw [if_pos hv0]; exact ⟨_, rfl⟩
                  · rw [if_neg hv0]
                    by_cases hv : json.length < skipChar json 58 (i + keyeaten) + valeaten
                    · rw [if_pos hv]; exact ⟨_, rfl⟩
                    · rw [if_neg hv]
                      have := le_skipChar json 44 (skipChar json 58 (i + keyeaten) + valeaten)
                      exact objLoop_total sub json hsub fuel _ _ (by omega) (by omega)
            | _ => exact ⟨_, rfl⟩
    · rw [if_neg hi]; exact ⟨_, rfl⟩

/-- With a depth bound above the length of the view, `parseFuel` never runs out of fuel. -/
theorem parseFuel_total (lib : FloatLib) :
    ∀ (n : Nat) (json : List Nat), json.length = n → ∀ fuel : Nat, json.length < fuel →
      ∃ r, parseFuel lib fuel json = some r := by
  intro n
  induction n using Nat.strong_induction_on with
  | _ n ih =>
    intro json hn fuel hf
    obtain ⟨g, rfl⟩ : ∃ k, fuel = k + 1 := ⟨fuel - 1, by omega⟩
    cases json with
    | nil => rw [parseFuel]; exact ⟨_, rfl⟩
    | cons c cs =>
      have hsub : ∀ j, 1 ≤ j → ∃ r, parseFuel lib g ((c :: cs).drop j) = some r := by
        intro j hj
        have hlen : ((c :: cs).drop j).length < n := by
          rw [List.length_drop, ← hn]; simp; omega
        exact ih _ hlen _ rfl g (by simp only [List.length_cons] at hf hn; omega)
      rw [parseFuel]
      simp only [List.isEmpty_cons, Bool.false_eq_true, if_false]
      split_ifs with hws h1 h2 h3 h4 h5
      · have hoff : 1 ≤ (find_first_not_of_ws (c :: cs)).getD 0 := by
          obtain ⟨ha, hb⟩ := hws
          cases hfo : find_first_not_of_ws (c :: cs) with
          | none => rw [hfo] at ha; cases ha
          | some k =>
            rw [hfo] at hb
            have : k ≠ 0 := fun hk => hb (by rw [hk])
            simp only [Option.getD_some]; omega
        obtain ⟨r, hr⟩ := hsub _ hoff
        rw [hr]
        cases r with
        | error e => exact ⟨_, rfl⟩
        | ok p => exact ⟨_, rfl⟩
      · exact ⟨_, rfl⟩
      · exact ⟨_, rfl⟩
      · obtain ⟨r, hr⟩ := strLoop_total (c :: cs) ((c :: cs).getD 0 0) (c :: cs).length 1
          .Raw [] (by omega)
        rw [hr]
        cases r with
        | error e => exact ⟨_, rfl⟩
        | ok p => exact ⟨_, rfl⟩
      · exact arrLoop_total _ _ hsub _ 1 [] (Nat.le_refl 1) (by omega)
      · exact objLoop_total _ _ hsub _ 1 [] (Nat.le_refl 1) (by omega)
      · exact ⟨_, rfl⟩


/-- C18: `parse` terminates on every finite input.  It gives a result (a pair or an
exception) for every input, and the same result at every depth bound above the length of the
input, so it is a total function of the input alone.  The reasons are the ones the claim
names: the loops consult `parse` only on the views `json.substr(i)` with `i ≥ 1`, which are
strictly shorter than a non-empty `json`, and every iteration of the string, array and object
loops exits or moves the offset forward, so a loop started at offset `i` ends within
`json.length - i` iterations. -/
theorem parse_terminates (lib : FloatLib) (json : List Nat) :
    (∃ r, parse lib json = some r)
    ∧ (∀ fuel, json.length < fuel → parseFuel lib fuel json = parse lib json)
    ∧ (∀ i, 1 ≤ i → json ≠ [] → (json.drop i).length < json.length)
    ∧ (∀ sub sub' : List Nat → Outcome,
        (∀ i, 1 ≤ i → sub (json.drop i) = sub' (json.drop i)) →
        ∀ fuel, arrLoop sub json fuel 1 [] = arrLoop sub' json fuel 1 []
          ∧ objLoop sub json fuel 1 [] = objLoop sub' json fuel 1 [])
    ∧ (∀ q fuel i phase str, json.length ≤ i + fuel →
        ∃ r, strLoop json q fuel i phase str = some r)
    ∧ (∀ fuel i res, 1 ≤ i → json.length ≤ i + fuel →
        ∃ r, arrLoop (parse lib) json fuel i res = some r)
    ∧ (∀ fuel i res, 1 ≤ i → json.length ≤ i + fuel →
        ∃ r, objLoop (parse lib) json fuel i res = some r) := by
  have htot : ∀ j, 1 ≤ j → ∃ r, parse lib (json.drop j) = some r :=
    fun j _ => parseFuel_total lib _ _ rfl _ (Nat.lt_succ_self _)
  refine ⟨parseFuel_total lib _ json rfl _ (Nat.lt_succ_self _),
    fun fuel h => parseFuel_eq_parse lib json fuel h, ?_, ?_,
    fun q fuel i phase str h => strLoop_total json q fuel i phase str h,
    fun fuel i res h1 h2 => arrLoop_total _ json htot fuel i res h1 h2,
    fun fuel i res h1 h2 => objLoop_total _ json htot fuel i res h1 h2⟩
  · intro i hi hne
    have : 0 < json.length := List.length_pos.mpr hne
    rw [List.length_drop]
    omega
  · intro sub sub' h fuel
    exact ⟨arrLoop_congr sub sub' json h fuel 1 [] (Nat.le_refl 1),
      objLoop_congr sub sub' json h fuel 1 [] (Nat.le_refl 1)⟩


/-! ## Inputs without a backslash: no exception, and `eaten` within the view -/

theorem dump_null (lib : FloatLib) (isPretty : Bool) (depth : Nat) :
    dump lib .null isPretty depth = [110, 117, 108, 108] := by
  rw [dump]; rfl

theorem dump_array_nil (lib : FloatLib) (depth : Nat) :
    dump lib (.array []) false depth = [91, 93] := by
  rw [dump]; rfl

theorem dump_array_cons (lib : FloatLib) (x : Value) (xs : List Value) (depth : Nat) :
    dump lib (.array (x :: xs)) false depth =
      91 :: (dumpElems lib (x :: xs) false depth ++ [93]) := by
  have h1 : ascii "[" = [91] := rfl
  have h2 : ascii "]" = [93] := rfl
  rw [dump, h1, h2]
  simp

theorem dumpElems_single (lib : FloatLib) (x : Value) (depth : Nat) :
    dumpElems lib [x] false depth = dump lib x false (depth + 1) := by
  rw [dumpElems, dumpElems]; simp

theorem dumpElems_cons_cons (lib : FloatLib) (x y : Value) (ys : List Value) (depth : Nat) :
    dumpElems lib (x :: y :: ys) false depth =
      dump lib x false (depth + 1) ++ 44 :: dumpElems lib (y :: ys) false depth := by
  rw [dumpElems]
  have h : ascii "," = [44] := rfl
  simp [h]

/-- The text of a plain value is not empty and does not start with `]`. -/
theorem dump_plain_head (lib : FloatLib) (v : Value) (h : plainValue v = true) (depth : Nat) :
    dump lib v false depth ≠ [] ∧ (dump lib v false depth).head? ≠ some 93 := by
  cases v with
  | null => rw [dump_null]; simp
  | int n =>
    rw [dump_int]
    obtain ⟨c, tl, hs, hc⟩ := to_string_head n
    rw [hs]
    refine ⟨by simp, ?_⟩
    simp only [List.head?_cons, ne_eq, Option.some.injEq]
    omega
  | array xs =>
    cases xs with
    | nil => rw [dump_array_nil]; simp
    | cons x xs => rw [dump_array_cons]; simp
  | bool b => simp [plainValue] at h
  | float d => simp [plainValue] at h
  | string s => simp [plainValue] at h
  | object kvs => simp [plainValue] at h


theorem parse_null_prefix (lib : FloatLib) (rest : List Nat) :
    parse lib (110 :: 117 :: 108 :: 108 :: rest) = some (.ok (.null, 4)) := by
  simp [parse, parseFuel, find_first_not_of_ws, parseLiteral_eq, searchBool, boolWords_eq,
    List.isPrefixOf]

mutual
/-- Reading back the compact text of a plain value, followed by nothing, by `,` or by `]`. -/
theorem parse_dump_plain (lib : FloatLib) :
    ∀ (v : Value), plainValue v = true → ∀ (d : Nat) (rest : List Nat),
      (∀ c ∈ rest.head?, c = 44 ∨ c = 93) →
      parse lib (dump lib v false d ++ rest) = some (.ok (v, (dump lib v false d).length))
  | .null, _, d, rest, _ => by
    rw [dump_null]
    exact parse_null_prefix lib rest
  | .int n, h, d, rest, hr => by
    rw [dump_int]
    have hn : -2147483648 ≤ n ∧ n ≤ 2147483647 := by simpa [plainValue] using h
    exact parseFuel_to_string lib _ n hn rest (fun c hc => by
      rcases hr c hc with rfl | rfl <;> simp [isDigit])
  | .array [], _, d, rest, _ => by
    rw [dump_array_nil]
    have := arrLoop_close (parseFuel lib ([91] ++ 93 :: rest).length) [91] rest
      (rest.length + 1) []
    rw [parse]
    simp only [List.cons_append, List.nil_append, List.length_cons, List.length_nil] at this ⊢
    rw [parseFuel_bracket]
    simpa using this
  | .array (x :: xs), h, d, rest, _ => by
    have hl := arrLoop_plain lib (x :: xs) (by simpa [plainValue] using h) (by simp) d [91]
      rest [] ([91] ++ (dumpElems lib (x :: xs) false d ++ 93 :: rest)).length
      ([91] ++ (dumpElems lib (x :: xs) false d ++ 93 :: rest)).length
      (by simp) (Nat.le_refl _) (by simp)
    rw [dump_array_cons, parse]
    simp only [List.cons_append, List.nil_append, List.append_assoc, List.singleton_append,
      List.length_cons] at hl ⊢
    rw [parseFuel_bracket]
    simpa using hl
  | .bool _, h, _, _, _ => by simp [plainValue] at h
  | .float _, h, _, _, _ => by simp [plainValue] at h
  | .string _, h, _, _, _ => by simp [plainValue] at h
  | .object _, h, _, _, _ => by simp [plainValue] at h
/-- The array loop over the compact texts of plain values joined by `,` and closed by `]`. -/
theorem arrLoop_plain (lib : FloatLib) :
    ∀ (l : List Value), plainValues l = true → l ≠ [] →
      ∀ (d : Nat) (pre rest : List Nat) (res : List Value) (F fuel : Nat),
      1 ≤ pre.length →
      (pre ++ (dumpElems lib l false d ++ 93 :: rest)).length ≤ F →
      (pre ++ (dumpElems lib l false d ++ 93 :: rest)).length ≤ pre.length + fuel →
      arrLoop (parseFuel lib F) (pre ++ (dumpElems lib l false d ++ 93 :: rest)) fuel
          pre.length res =
        some (.ok (.array (res ++ l),
          (pre ++ (dumpElems lib l false d ++ [93])).length))
  | [], _, hne, _, _, _, _, _, _, _, _, _ => absurd rfl hne
  | [x], h, _, d, pre, rest, res, F, fuel, hpre, hF, hf => by
    have hx : plainValue x = true := by simpa [plainValues] using h
    obtain ⟨hne, hhead⟩ := dump_plain_head lib x hx (d + 1)
    have hp := parse_dump_plain lib x hx (d + 1) (93 :: rest) (by simp)
    rw [dumpElems_single] at hF hf ⊢
    have hlen : 0 < (dump lib x false (d + 1)).length := List.length_pos.mpr hne
    have hsub : parseFuel lib F (dump lib x false (d + 1) ++ 93 :: rest) =
        some (.ok (x, (dump lib x false (d + 1)).length)) := by
      rw [parseFuel_eq_parse lib _ F
        (by simp only [List.length_append, List.length_cons] at hF ⊢; omega)]
      exact hp
    obtain ⟨fuel1, rfl⟩ : ∃ j, fuel = j + 1 := ⟨fuel - 1, by
      simp only [List.length_append, List.length_cons] at hf; omega⟩
    obtain ⟨fuel2, rfl⟩ : ∃ j, fuel1 = j + 1 := ⟨fuel1 - 1, by
      simp only [List.length_append, List.length_cons] at hf; omega⟩
    rw [arrLoop_elem _ pre (dump lib x false (d + 1)) (93 :: rest) _ res x hne hhead hsub]
    simp only [List.head?_cons, Option.some.injEq, Nat.reduceEqDiff, if_false]
    have hc := arrLoop_close (parseFuel lib F) (pre ++ dump lib x false (d + 1)) rest fuel2
      (res ++ [x])
    simp only [List.append_assoc, List.length_append] at hc
    rw [hc]
    simp [Nat.add_assoc]
  | x :: y :: ys, h, _, d, pre, rest, res, F, fuel, hpre, hF, hf => by
    have hxy : plainValue x = true ∧ plainValues (y :: ys) = true := by
      simpa [plainValues] using h
    obtain ⟨hne, hhead⟩ := dump_plain_head lib x hxy.1 (d + 1)
    have hlen : 0 < (dump lib x false (d + 1)).length := List.length_pos.mpr hne
    have ih := fun fuel1 h1 h2 h3 => arrLoop_plain lib (y :: ys) hxy.2 (by simp) d
      (pre ++ (dump lib x false (d + 1) ++ [44])) rest (res ++ [x]) F fuel1 h1 h2 h3
    have hp := fun T => parse_dump_plain lib x hxy.1 (d + 1) (44 :: T) (by simp)
    have hres : res ++ [x] ++ y :: ys = res ++ x :: y :: ys := by simp
    rw [dumpElems_cons_cons] at hF hf ⊢
    rw [hres] at ih
    generalize dumpElems lib (y :: ys) false d = E at *
    have hj : (pre ++ (dump lib x false (d + 1) ++ [44])) ++ (E ++ 93 :: rest) =
        pre ++ ((dump lib x false (d + 1) ++ 44 :: E) ++ 93 :: rest) := by simp
    have hj2 : (pre ++ (dump lib x false (d + 1) ++ [44])) ++ (E ++ [93]) =
        pre ++ ((dump lib x false (d + 1) ++ 44 :: E) ++ [93]) := by simp
    have hidx : (pre ++ (dump lib x false (d + 1) ++ [44])).length =
        pre.length + (dump lib x false (d + 1)).length + 1 := by
      simp [Nat.add_assoc]
    rw [hj, hj2, hidx] at ih
    have hj3 : pre ++ ((dump lib x false (d + 1) ++ 44 :: E) ++ 93 :: rest) =
        pre ++ (dump lib x false (d + 1) ++ 44 :: (E ++ 93 :: rest)) := by simp
    have hsub : parseFuel lib F (dump lib x false (d + 1) ++ 44 :: (E ++ 93 :: rest)) =
        some (.ok (x, (dump lib x false (d + 1)).length)) := by
      rw [parseFuel_eq_parse lib _ F
        (by rw [hj3] at hF
            simp only [List.length_append, List.length_cons] at hF ⊢; omega)]
      exact hp _
    obtain ⟨fuel1, rfl⟩ : ∃ j, fuel = j + 1 := ⟨fuel - 1, by
      simp only [List.length_append, List.length_cons] at hf; omega⟩
    have hstep := arrLoop_elem _ pre (dump lib x false (d + 1)) (44 :: (E ++ 93 :: rest))
      fuel1 res x hne hhead hsub
    rw [← hj3] at hstep
    rw [hstep]
    simp only [List.head?_cons, if_true]
    apply ih
    · omega
    · exact hF
    · simp only [List.length_append, List.length_cons] at hf ⊢
      omega
end


/-- C15: round trip on the values free of the string, bool and float caveats.  For every
value `v` built only from `Null`, `Int` (signed 32-bit) and `Array` (nested to any depth,
empty arrays included), `parse (dump (v, false))` is `(v, length (dump (v, false)))`. -/
theorem parse_dump_roundtrip (lib : FloatLib) (v : Value) (h : plainValue v = true) :
    parse lib (dump lib v false 0) = some (.ok (v, (dump lib v false 0).length)) := by
  have := parse_dump_plain lib v h 0 [] (by simp)
  rwa [List.append_nil] at this

theorem parse_dump_roundtrip_witness :
    plainValue (.array [.int 1, .array [.null, .array []], .int (-7)]) = true
    ∧ parse noFloat (dump noFloat (.array [.int 1, .array [.null, .array []], .int (-7)])
        false 0) =
      some (.ok (.array [.int 1, .array [.null, .array []], .int (-7)],
        (dump noFloat (.array [.int 1, .array [.null, .array []], .int (-7)])
          false 0).length)) :=
  ⟨by decide,
    parse_dump_roundtrip noFloat (.array [.int 1, .array [.null, .array []], .int (-7)])
      (by decide)⟩


/-! ## Failure of a sub-parse inside a container -/

/-- The result of the array loop does not depend on the iteration bound once the bound covers
the rest of the view. -/
theorem arrLoop_fuel_irrel (sub : List Nat → Outcome) (json : List Nat) :
    ∀ (fuel fuel' i : Nat) (res : List Value),
      json.length ≤ i + fuel → json.length ≤ i + fuel' →
      arrLoop sub json fuel i res = arrLoop sub json fuel' i res
  | 0, fuel', i, res, h, _ => by
    have hi : json.length ≤ i := by omega
    rw [arrLoop_at_end sub json 0 i res hi, arrLoop_at_end sub json fuel' i res hi]
  | fuel + 1, 0, i, res, _, h' => by
    have hi : json.length ≤ i := by omega
    rw [arrLoop_at_end sub json _ i res hi, arrLoop_at_end sub json 0 i res hi]
  | fuel + 1, fuel' + 1, i, res, h, h' => by
    rw [arrLoop, arrLoop]
    by_cases hlt : i < json.length
    · rw [if_pos hlt, if_pos hlt]
      by_cases hc : json.getD i 0 = 93
      · rw [if_pos hc, if_pos hc]
      · rw [if_neg hc, if_neg hc]
        cases hs : sub (json.drop i) with
        | none => rfl
        | some r =>
          cases r with
          | error e => rfl
          | ok p =>
            obtain ⟨obj, eaten⟩ := p
            simp only []
            by_cases h0 : eaten = 0
            · rw [if_pos h0, if_pos h0]
            · rw [if_neg h0, if_neg h0]
              by_cases hb : json.length < i + eaten
              · rw [if_pos hb, if_pos hb]
              · rw [if_neg hb, if_neg hb]
                have := le_skipChar json 44 (i + eaten)
                exact arrLoop_fuel_irrel sub json fuel fuel' _ _ (by omega) (by omega)
    · rw [if_neg hlt, if_neg hlt]

/-- The loop is over once the offset has reached the end of the view. -/
theorem objLoop_at_end (sub : List Nat → Outcome) (json : List Nat) (fuel i : Nat)
    (res : List (List Nat × Value)) (h : json.length ≤ i) :
    objLoop sub json fuel i res = some (.ok (.object res, i)) := by
  have : ¬ i < json.length := by omega
  cases fuel <;> simp [objLoop, this]

/-- The result of the object loop does not depend on the iteration bound once the bound
covers the rest of the view. -/
theorem objLoop_fuel_irrel (sub : List Nat → Outcome) (json : List Nat) :
    ∀ (fuel fuel' i : Nat) (res : List (List Nat × Value)),
      json.length ≤ i + fuel → json.length ≤ i + fuel' →
      objLoop sub json fuel i res = objLoop sub json fuel' i res
  | 0, fuel', i, res, h, _ => by
    have hi : json.length ≤ i := by omega
    rw [objLoop_at_end sub json 0 i res hi, objLoop_at_end sub json fuel' i res hi]
  | fuel + 1, 0, i, res, _, h' => by
    have hi : json.length ≤ i := by omega
    rw [objLoop_at_end sub json _ i res hi, objLoop_at_end sub json 0 i res hi]
  | fuel + 1, fuel' + 1, i, res, h, h' => by
    rw [objLoop, objLoop]
    by_cases hlt : i < json.length
    · rw [if_pos hlt, if_pos hlt]
      by_cases hc : json.getD i 0 = 125
      · rw [if_pos hc, if_pos hc]
      · rw [if_neg hc, if_neg hc]
        cases hs : sub (json.drop i) with
        | none => rfl
        | some r =>
          cases r with
          | error e => rfl
          | ok p =>
            obtain ⟨keyobj, keyeaten⟩ := p
            simp only []
            by_cases h0 : keyeaten = 0
            · rw [if_pos h0, if_pos h0]
            · rw [if_neg h0, if_neg h0]
              cases keyobj with
              | string key =>
                simp only []
                by_cases hb : json.length < i + keyeaten
                · rw [if_pos hb, if_pos hb]
                · rw [if_neg hb, if_neg hb]
                  cases hv : sub (json.drop (skipChar json 58 (i + keyeaten))) with
                  | none => rfl
                  | some r2 =>
                    cases r2 with
                    | error e => rfl
                    | ok p2 =>
                      obtain ⟨valobj, valeaten⟩ := p2
                      simp only []
                      by_cases hv0 : valeaten = 0
                      · rw [if_pos hv0, if_pos hv0]
                      · rw [if_neg hv0, if_neg hv0]
                        by_cases hb2 :
                            json.length < skipChar json 58 (i + keyeaten) + valeaten
                        · rw [if_pos hb2, if_pos hb2]
                        · rw [if_neg hb2, if_neg hb2]
                          have h1 := le_skipChar json 58 (i + keyeaten)
                          have h2 := le_skipChar json 44
                            (skipChar json 58 (i + keyeaten) + valeaten)
                          exact objLoop_fuel_irrel sub json fuel fuel' _ _ (by omega)
                            (by omega)
              | _ => rfl
    · rw [if_neg hlt, if_neg hlt]

/-- From a state that a run reaches, the loop goes on as it does from the start. -/
theorem arrLoop_of_reach (sub : List Nat → Outcome) (json : List Nat) {i : Nat}
    {res : List Value} (hr : ArrReach sub json i res) :
    1 ≤ i ∧ arrLoop sub json json.length 1 [] = arrLoop sub json json.length i res := by
  induction hr with
  | start => exact ⟨Nat.le_refl 1, rfl⟩
  | @step i res obj eaten _ hlt hc hs h0 hb ih =>
    obtain ⟨hi1, ih⟩ := ih
    have hsk := le_skipChar json 44 (i + eaten)
    refine ⟨by omega, ?_⟩
    rw [ih]
    obtain ⟨n, hn⟩ : ∃ n, json.length = n + 1 := ⟨json.length - 1, by omega⟩
    rw [hn, arrLoop, ← hn, if_pos hlt, if_neg hc, hs]
    simp only []
    rw [if_neg h0, if_neg (by omega)]
    exact arrLoop_fuel_irrel sub json _ _ _ _ (by omega) (by omega)

/-- From a state that a run reaches, the loop goes on as it does from the start. -/
theorem objLoop_of_reach (sub : List Nat → Outcome) (json : List Nat) {i : Nat}
    {res : List (List Nat × Value)} (hr : ObjReach sub json i res) :
    1 ≤ i ∧ objLoop sub json json.length 1 [] = objLoop sub json json.length i res := by
  induction hr with
  | start => exact ⟨Nat.le_refl 1, rfl⟩
  | @step i res key keyeaten valobj valeaten _ hlt hc hs h0 hb hv hv0 hb2 ih =>
    obtain ⟨hi1, ih⟩ := ih
    have h1 := le_skipChar json 58 (i + keyeaten)
    have h2 := le_skipChar json 44 (skipChar json 58 (i + keyeaten) + valeaten)
    refine ⟨by omega, ?_⟩
    rw [ih]
    obtain ⟨n, hn⟩ : ∃ n, json.length = n + 1 := ⟨json.length - 1, by omega⟩
    rw [hn, objLoop, ← hn, if_pos hlt, if_neg hc, hs]
    simp only []
    rw [if_neg h0, if_neg (by omega), hv]
    simp only []
    rw [if_neg hv0, if_neg (by omega)]
    exact objLoop_fuel_irrel sub json _ _ _ _ (by omega) (by omega)


/-- `parse` of a view that starts with `[` is the array loop run with `parse` itself on the
views `json.substr(i)`. -/
theorem parse_bracket_eq (lib : FloatLib) (body : List Nat) :
    parse lib (91 :: body) = arrLoop (parse lib) (91 :: body) (91 :: body).length 1 [] := by
  rw [parse, List.length_cons, parseFuel_bracket]
  apply arrLoop_congr
  · intro i hi
    exact parseFuel_eq_parse lib _ _ (by rw [List.length_drop]; simp; omega)
  · exact Nat.le_refl 1

/-- `parse` of a view that starts with an opening brace is the object loop run with `parse`
itself on the views `json.substr(i)`. -/
theorem parse_brace_eq (lib : FloatLib) (body : List Nat) :
    parse lib (123 :: body) = objLoop (parse lib) (123 :: body) (123 :: body).length 1 [] := by
  rw [parse, List.length_cons, parseFuel_brace]
  apply objLoop_congr
  · intro i hi
    exact parseFuel_eq_parse lib _ _ (by rw [List.length_drop]; simp; omega)
  · exact Nat.le_refl 1

theorem head_eq_cons {json : List Nat} {c : Nat} (h : json.head? = some c) :
    ∃ body, json = c :: body := by
  cases json with
  | nil => simp at h
  | cons a body =>
    simp only [List.head?_cons, Option.some.injEq] at h
    exact ⟨body, by rw [h]⟩

/-- C16: failure propagation in containers.  For every input that begins with `[`: if, at an
offset the array loop reaches that does not hold `]`, the sub-parse of the remaining text
reports `consumed = 0`, then `parse` of the whole input reports `consumed = 0` (with the
elements read so far).  For every input that begins with an opening brace: if, at an offset
the object loop reaches that does not hold the closing brace, the key sub-parse reports
`consumed = 0`, or the parsed key is not a `String`, or the value sub-parse reports
`consumed = 0`, then `parse` of the whole input reports `consumed = 0`.  Examples: `[1,x]`
and the text `1:2` in braces. -/
theorem failure_propagates (lib : FloatLib) (json : List Nat) :
    (∀ i res v, json.head? = some 91 → ArrReach (parse lib) json i res →
        i < json.length → json.getD i 0 ≠ 93 →
        parse lib (json.drop i) = some (.ok (v, 0)) →
        parse lib json = some (.ok (.array res, 0)))
    ∧ (∀ i res v, json.head? = some 123 → ObjReach (parse lib) json i res →
        i < json.length → json.getD i 0 ≠ 125 →
        parse lib (json.drop i) = some (.ok (v, 0)) →
        parse lib json = some (.ok (.object res, 0)))
    ∧ (∀ i res k n, json.head? = some 123 → ObjReach (parse lib) json i res →
        i < json.length → json.getD i 0 ≠ 125 →
        parse lib (json.drop i) = some (.ok (k, n)) → (∀ s, k ≠ .string s) →
        parse lib json = some (.ok (.object res, 0)))
    ∧ (∀ i res key n v, json.head? = some 123 → ObjReach (parse lib) json i res →
        i < json.length → json.getD i 0 ≠ 125 →
        parse lib (json.drop i) = some (.ok (.string key, n)) → n ≠ 0 →
        i + n ≤ json.length →
        parse lib (json.drop (skipChar json 58 (i + n))) = some (.ok (v, 0)) →
        parse lib json = some (.ok (.object res, 0)))
    ∧ parse lib (ascii "[1,x]") = some (.ok (.array [.int 1], 0))
    ∧ parse lib (ascii "\x7b1:2\x7d") = some (.ok (.object [], 0)) := by
  refine ⟨?_, ?_, ?_, ?_, by rfl, by rfl⟩
  · intro i res v hh hr hlt hc hs
    obtain ⟨body, rfl⟩ := head_eq_cons hh
    obtain ⟨_, hrun⟩ := arrLoop_of_reach _ _ hr
    rw [parse_bracket_eq, hrun]
    obtain ⟨n, hn⟩ : ∃ n, (91 :: body).length = n + 1 := ⟨body.length, rfl⟩
    rw [hn, arrLoop, if_pos hlt, if_neg hc, hs]
    simp
  · intro i res v hh hr hlt hc hs
    obtain ⟨body, rfl⟩ := head_eq_cons hh
    obtain ⟨_, hrun⟩ := objLoop_of_reach _ _ hr
    rw [parse_brace_eq, hrun]
    obtain ⟨n, hn⟩ : ∃ n, (123 :: body).length = n + 1 := ⟨body.length, rfl⟩
    rw [hn, objLoop, if_pos hlt, if_neg hc, hs]
    simp
  · intro i res k n hh hr hlt hc hs hk
    obtain ⟨body, rfl⟩ := head_eq_cons hh
    obtain ⟨_, hrun⟩ := objLoop_of_reach _ _ hr
    rw [parse_brace_eq, hrun]
    obtain ⟨m, hm⟩ : ∃ m, (123 :: body).length = m + 1 := ⟨body.length, rfl⟩
    rw [hm, objLoop, if_pos hlt, if_neg hc, hs]
    simp only []
    cases k with
    | string s => exact absurd rfl (hk s)
    | _ => by_cases h0 : n = 0 <;> simp [h0]
  · intro i res key n v hh hr hlt hc hs h0 hb hv
    obtain ⟨body, rfl⟩ := head_eq_cons hh
    obtain ⟨_, hrun⟩ := objLoop_of_reach _ _ hr
    rw [parse_brace_eq, hrun]
    obtain ⟨m, hm⟩ : ∃ m, (123 :: body).length = m + 1 := ⟨body.length, rfl⟩
    rw [hm, objLoop, if_pos hlt, if_neg hc, hs]
    simp only []
    rw [if_neg h0, if_neg (by omega), hv]
    simp

/-- The array part of `failure_propagates` at `[1,x]`: the loop reaches offset 3 with the
element `1`, and the sub-parse of `x]` reports 0. -/
theorem failure_propagates_witness :
    parse noFloat (ascii "[1,x]") = some (.ok (.array [.int 1], 0)) :=
  (failure_propagates noFloat (ascii "[1,x]")).1 3 [.int 1] .null (by rfl)
    (@ArrReach.step (parse noFloat) (ascii "[1,x]") 1 [] (.int 1) 1 ArrReach.start
      (by decide) (by decide) (by rfl) (by decide) (by decide))
    (by decide) (by decide) (by rfl)

end BabyJson
